import Mathlib

/-!
# Sorted hash table (`0x1A-hash_tables/100-sorted_hash_table.c`)

A shallow embedding of the sorted hash table: node memory is an arena
(`List shash_node`, the address of a node is its position), a pointer is an
`Option Nat` (`none` is `NULL`), a C string is the list of its characters before
the terminating NUL.  A function that can meet undefined behaviour returns an
`Option` whose `none` stands for an execution without a defined result (a
dereference of `NULL` or of an address outside the arena, an out-of-bounds
bucket access, `strdup (NULL)`, or a walk that does not end); for
`shash_table_create` and `create_shash_node`, which cannot, `none` is the `NULL`
result.  The outcome of each allocation a function attempts is an explicit
Boolean argument (`true`: the allocation succeeds).
-/

set_option autoImplicit false

namespace SortedHashTable

/-! ## Data model -/

/-- Node of the table (`shash_node_t`): key, value, the link of the bucket
chain (`next`) and the two links of the sorted chain (`sprev`, `snext`). -/
structure shash_node where
  key : List Char
  value : List Char
  next : Option Nat
  sprev : Option Nat
  snext : Option Nat
  deriving DecidableEq, Repr

/-- Table (`shash_table_t`) together with the node memory it points into:
`array` is the bucket array (`none` when the pointer is `NULL`), `nodes` is the
arena holding every allocated node. -/
structure shash_table where
  size : Nat
  array : Option (List (Option Nat))
  shead : Option Nat
  stail : Option Nat
  nodes : List shash_node
  deriving DecidableEq, Repr

/-- Event of `free`: what `shash_table_delete` hands back to the allocator. -/
inductive Released where
  | key (a : Nat)
  | value (a : Nat)
  | node (a : Nat)
  | array
  | table
  deriving DecidableEq, Repr

/-! ## Library functions -/

/-- Sign of libc `strcmp` on two C strings: characters are compared in order,
and a string that is a proper start of the other compares smaller (its NUL is
below every character). -/
def strcmp : List Char → List Char → Int
  | [], [] => 0
  | [], _ :: _ => -1
  | _ :: _, [] => 1
  | a :: as, b :: bs => if a < b then -1 else if b < a then 1 else strcmp as bs

/-- Modelled from the spec: `key_index` is declared in `hash_tables.h`, which is
not among the sources; the spec only says that it maps a key to a bucket slot
index, deterministically.  The theorems take the indexing function as a
parameter; this instance (the djb2 hash on `unsigned long`, reduced modulo the
capacity) is the one used to evaluate the code on concrete tables. -/
def djb2_index (key : List Char) (size : Nat) : Nat :=
  (key.foldl (fun h c => (h * 33 + c.toNat) % 2 ^ 64) 5381) % size

/-! ## Memory access -/

/-- Assignment `p->next = v`. -/
def write_next (m : List shash_node) (p : Nat) (v : Option Nat) : Option (List shash_node) :=
  match m[p]? with
  | none => none
  | some n => some (m.set p { n with next := v })

/-- Assignment `p->sprev = v`. -/
def write_sprev (m : List shash_node) (p : Nat) (v : Option Nat) : Option (List shash_node) :=
  match m[p]? with
  | none => none
  | some n => some (m.set p { n with sprev := v })

/-- Assignment `p->snext = v`. -/
def write_snext (m : List shash_node) (p : Nat) (v : Option Nat) : Option (List shash_node) :=
  match m[p]? with
  | none => none
  | some n => some (m.set p { n with snext := v })

/-! ## The functions of the source file -/

/-- Loop of `sorted_list_insert` (`do { ... } while (shead)`), entered with a
non-null cursor `shead`; `fuel` bounds the number of iterations. -/
def sorted_list_insert_loop (new : Nat) : Nat → shash_table → Nat → Option shash_table
  | 0, _, _ => none
  | fuel + 1, ht, shead =>
    match ht.nodes[new]?, ht.nodes[shead]? with
    | some nw, some sh =>
      if strcmp nw.key sh.key < 0 then
        -- new->snext = shead; new->sprev = shead->sprev;
        match write_snext ht.nodes new (some shead) with
        | none => none
        | some m1 =>
          match m1[shead]? with
          | none => none
          | some sh1 =>
            match write_sprev m1 new sh1.sprev with
            | none => none
            | some m2 =>
              match m2[shead]? with
              | none => none
              | some sh2 =>
                match sh2.sprev with
                | none =>
                  -- ht->shead = new; shead->sprev = new;
                  match write_sprev m2 shead (some new) with
                  | none => none
                  | some m3 => some { ht with shead := some new, nodes := m3 }
                | some p =>
                  -- shead->sprev->snext = new; shead->sprev = new;
                  match write_snext m2 p (some new) with
                  | none => none
                  | some m3 =>
                    match write_sprev m3 shead (some new) with
                    | none => none
                    | some m4 => some { ht with nodes := m4 }
      else
        match sh.snext with
        | some nxt => sorted_list_insert_loop new fuel ht nxt
        | none =>
          -- new->sprev = ht->stail; new->snext = ht->stail->snext;
          -- ht->stail->snext = new; ht->stail = new;
          match write_sprev ht.nodes new ht.stail with
          | none => none
          | some m1 =>
            match ht.stail with
            | none => none
            | some tl =>
              match m1[tl]? with
              | none => none
              | some tn =>
                match write_snext m1 new tn.snext with
                | none => none
                | some m2 =>
                  match write_snext m2 tl (some new) with
                  | none => none
                  | some m3 => some { ht with stail := some new, nodes := m3 }
    | _, _ => none

/-- Function `sorted_list_insert`: links the node at address `new` into the
sorted chain of `ht`. -/
def sorted_list_insert (ht : shash_table) (new : Nat) : Option shash_table :=
  match ht.shead with
  | none =>
    -- ht->shead = ht->stail = new; new->snext = new->sprev = NULL;
    match write_sprev ht.nodes new none with
    | none => none
    | some m1 =>
      match write_snext m1 new none with
      | none => none
      | some m2 => some { ht with shead := some new, stail := some new, nodes := m2 }
  | some shead => sorted_list_insert_loop new ht.nodes.length ht shead

/-- Node as `create_shash_node` leaves it: key and value set, the three links
not yet written. -/
def fresh_node (key value : List Char) : shash_node :=
  { key := key, value := value, next := none, sprev := none, snext := none }

/-- Function `create_shash_node`: the new node is placed at the first free
address of the arena, which is returned with the extended arena; `none` is the
`NULL` result of a failed `malloc`.  The link fields are not initialised by the
source (they are all written before they are read); they start as `NULL`. -/
def create_shash_node (m : List shash_node) (key value : List Char) (malloc_ok : Bool) :
    Option (Nat × List shash_node) :=
  if malloc_ok then some (m.length, m ++ [fresh_node key value])
  else none

/-- Function `shash_table_create`; `none` is the `NULL` result.  The byte count
`sizeof(shash_node_t *) * size` is computed on `unsigned long` (64 bits, 8-byte
pointers), so the array holds `(8 * size mod 2^64) / 8` slots. -/
def shash_table_create (size : Nat) (ht_ok array_ok : Bool) : Option shash_table :=
  if !ht_ok then none
  else if !array_ok then none
  else
    some { size := size
           array := some (List.replicate ((8 * size % 2 ^ 64) / 8) none)
           shead := none
           stail := none
           nodes := [] }

/-- Bucket scan shared by `shash_table_set` and `shash_table_get`:
`for (bucket = ...; bucket != NULL; bucket = bucket->next)
   if (strcmp(keydup, bucket->key) == 0) ...`.
The result is the address of the first node of the chain whose key equals
`key` (`some none` when the chain ends without one). -/
def bucket_scan (m : List shash_node) (key : List Char) : Nat → Option Nat → Option (Option Nat)
  | _, none => some none
  | 0, some _ => none
  | fuel + 1, some b =>
    match m[b]? with
    | none => none
    | some n => if strcmp key n.key = 0 then some (some b) else bucket_scan m key fuel n.next

/-- Function `shash_table_set`.  The result is the returned `int` and the table
after the call. -/
def shash_table_set (key_index : List Char → Nat → Nat) (ht : Option shash_table)
    (key value : Option (List Char)) (keydup_ok valdup_ok new_ok : Bool) :
    Option (Int × Option shash_table) :=
  match ht with
  | none => some (0, ht)
  | some t =>
    match t.array with
    | none => some (0, ht)
    | some arr =>
      match key with
      | none => some (0, ht)
      | some k =>
        if k = [] then some (0, ht)
        else if !keydup_ok then some (0, ht)
        else
          match value with
          | none => none
          | some v =>
            if !valdup_ok then some (0, ht)
            else
              let index := key_index k t.size
              match arr[index]? with
              | none => none
              | some first =>
                match bucket_scan t.nodes k t.nodes.length first with
                | none => none
                | some (some b) =>
                  -- bucket->key = keydup; bucket->value = valdup;
                  match t.nodes[b]? with
                  | none => none
                  | some n =>
                    some (1, some { t with nodes := t.nodes.set b { n with key := k, value := v } })
                | some none =>
                  match create_shash_node t.nodes k v new_ok with
                  | none => some (0, ht)
                  | some (new, m1) =>
                    -- new->next = ht->array[index]; ht->array[index] = new;
                    match write_next m1 new first with
                    | none => none
                    | some m2 =>
                      match sorted_list_insert
                          { t with array := some (arr.set index (some new)), nodes := m2 } new with
                      | none => none
                      | some t1 => some (1, some t1)

/-- Function `shash_table_get`.  The inner `none` is the `NULL` result. -/
def shash_table_get (key_index : List Char → Nat → Nat) (ht : Option shash_table)
    (key : Option (List Char)) (keydup_ok : Bool) : Option (Option (List Char)) :=
  match ht with
  | none => some none
  | some t =>
    match key with
    | none => some none
    | some k =>
      if !keydup_ok then some none
      else
        match t.array with
        | none => none
        | some arr =>
          match arr[key_index k t.size]? with
          | none => none
          | some first =>
            match bucket_scan t.nodes k t.nodes.length first with
            | none => none
            | some none => some none
            | some (some b) =>
              match t.nodes[b]? with
              | none => none
              | some n => some (some n.value)

/-- The single quote character. -/
def quote : Char := Char.ofNat 39

/-- Text written by `printf("'%s': '%s'", key, value)`. -/
def print_item (key value : List Char) : List Char :=
  [quote] ++ key ++ [quote, ':', ' ', quote] ++ value ++ [quote]

/-- Loop of `shash_table_print`: the text written from `node` on, `many` being
the flag of the source. -/
def print_loop (m : List shash_node) : Nat → Option Nat → Bool → Option (List Char)
  | _, none, _ => some []
  | 0, some _, _ => none
  | fuel + 1, some a, many =>
    match m[a]? with
    | none => none
    | some n =>
      match print_loop m fuel n.snext true with
      | none => none
      | some rest =>
        some ((if many then [',', ' '] else []) ++ print_item n.key n.value ++ rest)

/-- Function `shash_table_print`: the text written to standard output. -/
def shash_table_print (ht : Option shash_table) : Option (List Char) :=
  match ht with
  | none => some []
  | some t =>
    match print_loop t.nodes t.nodes.length t.shead false with
    | none => none
    | some body => some (['{'] ++ body ++ ['}', '\n'])

/-- Loop of `shash_table_print_rev`. -/
def print_rev_loop (m : List shash_node) : Nat → Option Nat → Bool → Option (List Char)
  | _, none, _ => some []
  | 0, some _, _ => none
  | fuel + 1, some a, many =>
    match m[a]? with
    | none => none
    | some n =>
      match print_rev_loop m fuel n.sprev true with
      | none => none
      | some rest =>
        some ((if many then [',', ' '] else []) ++ print_item n.key n.value ++ rest)

/-- Function `shash_table_print_rev`: the text written to standard output. -/
def shash_table_print_rev (ht : Option shash_table) : Option (List Char) :=
  match ht with
  | none => some []
  | some t =>
    match print_rev_loop t.nodes t.nodes.length t.stail false with
    | none => none
    | some body => some (['{'] ++ body ++ ['}', '\n'])

/-- Loop of `shash_table_delete`: `next = head->next; free(head->key);
free(head->value); free(head); head = next;`. -/
def delete_loop (m : List shash_node) : Nat → Option Nat → Option (List Released)
  | _, none => some []
  | 0, some _ => none
  | fuel + 1, some head =>
    match m[head]? with
    | none => none
    | some n =>
      match delete_loop m fuel n.next with
      | none => none
      | some rest => some (Released.key head :: Released.value head :: Released.node head :: rest)

/-- Function `shash_table_delete`: the sequence of `free` calls it makes. -/
def shash_table_delete (ht : Option shash_table) : Option (List Released) :=
  match ht with
  | none => some []
  | some t =>
    match t.array with
    | none => some []
    | some _ =>
      match delete_loop t.nodes t.nodes.length t.shead with
      | none => none
      | some freed => some (freed ++ [Released.array, Released.table])

/-! ## Specification vocabulary -/

/-- Key stored at address `a` (empty when `a` is not an address of the arena). -/
def keyAt (m : List shash_node) (a : Nat) : List Char :=
  match m[a]? with
  | some n => n.key
  | none => []

/-- Value stored at address `a`. -/
def valueAt (m : List shash_node) (a : Nat) : List Char :=
  match m[a]? with
  | some n => n.value
  | none => []

/-- Addresses visited by a walk that starts at `p` and follows the link `nxt`
until `NULL`; `none` when the walk leaves the arena or does not end within
`fuel` steps. -/
def chain_walk (nxt : shash_node → Option Nat) (m : List shash_node) :
    Nat → Option Nat → Option (List Nat)
  | _, none => some []
  | 0, some _ => none
  | fuel + 1, some a =>
    match m[a]? with
    | none => none
    | some n =>
      match chain_walk nxt m fuel (nxt n) with
      | none => none
      | some rest => some (a :: rest)

/-- Singly linked chain: following `nxt` from `p` visits exactly the addresses
of the list and then reaches `NULL`. -/
def Chain (nxt : shash_node → Option Nat) (m : List shash_node) : Option Nat → List Nat → Prop
  | p, [] => p = none
  | p, a :: l => p = some a ∧ ∃ n, m[a]? = some n ∧ Chain nxt m (nxt n) l

/-- Doubly linked chain: following `snext` from `p` visits exactly the addresses
of the list, and the `sprev` of each node is the address visited before it
(`prev` for the first one). -/
def DChain (m : List shash_node) : Option Nat → Option Nat → List Nat → Prop
  | _, p, [] => p = none
  | prev, p, a :: l =>
    p = some a ∧ ∃ n, m[a]? = some n ∧ n.sprev = prev ∧ DChain m (some a) n.snext l

/-- Position of a new node in the sorted chain: `new` goes immediately before
the first address whose key is greater than `k`, at the end when there is none. -/
def ins_sorted (m : List shash_node) (k : List Char) (new : Nat) : List Nat → List Nat
  | [] => [new]
  | a :: l => if strcmp k (keyAt m a) < 0 then new :: a :: l else a :: ins_sorted m k new l

/-- What one run of the scan of `sorted_list_insert` establishes, for the part
`dom` of the sorted chain that starts at the cursor and whose predecessor is
`prev`: `L` is that part with the new node spliced in. -/
structure InsPost (m : List shash_node) (new : Nat) (prev : Option Nat) (dom L : List Nat)
    (ht ht' : shash_table) : Prop where
  dchain : DChain ht'.nodes prev L.head? L
  stail : ht'.stail = L.getLast?
  size : ht'.size = ht.size
  array : ht'.array = ht.array
  shead_none : prev = none → ht'.shead = L.head?
  shead_some : prev ≠ none → ht'.shead = ht.shead
  pred : ∀ (p : Nat) (pn : shash_node), prev = some p → m[p]? = some pn →
    ht'.nodes[p]? = some { pn with snext := L.head? }
  frame : ∀ a : Nat, a ≠ new → a ∉ dom → prev ≠ some a → ht'.nodes[a]? = m[a]?
  fields : ∀ a : Nat, (ht'.nodes[a]?).map (fun n : shash_node => (n.key, n.value, n.next)) =
    (m[a]?).map (fun n : shash_node => (n.key, n.value, n.next))
  length : ht'.nodes.length = m.length

/-- Walk of the sorted chain from `shead` along `snext`: the addresses visited,
`none` when the walk does not end at `NULL` inside the arena. -/
def sorted_walk (t : shash_table) : Option (List Nat) :=
  chain_walk (fun n => n.snext) t.nodes t.nodes.length t.shead

/-- Walk of the chain of bucket `i` from `array[i]` along `next`. -/
def bucket_walk (t : shash_table) (i : Nat) : Option (List Nat) :=
  match t.array with
  | none => none
  | some arr =>
    match arr[i]? with
    | none => none
    | some p => chain_walk (fun n => n.next) t.nodes t.nodes.length p

/-- Walk of the sorted chain backwards, from `stail` along `sprev`. -/
def rev_walk (t : shash_table) : Option (List Nat) :=
  chain_walk (fun n => n.sprev) t.nodes t.nodes.length t.stail

/-- Entry of the table: an address met by the walk of the sorted chain or by
the walk of a bucket chain. -/
def is_entry (t : shash_table) (a : Nat) : Prop :=
  (∃ sl, sorted_walk t = some sl ∧ a ∈ sl) ∨ (∃ i bl, bucket_walk t i = some bl ∧ a ∈ bl)

/-- Addresses of the sorted chain, in chain order. -/
def sorted_chain (t : shash_table) : List Nat := (sorted_walk t).getD []

/-- The `(key, value)` pairs of the sorted chain, in chain order. -/
def items (t : shash_table) : List (List Char × List Char) :=
  (sorted_chain t).map (fun a => (keyAt t.nodes a, valueAt t.nodes a))

/-- Representation invariant of the table: `arr` is the bucket array, `sl` the
sorted chain and `bl i` the chain of bucket `i`. -/
structure Inv (key_index : List Char → Nat → Nat) (t : shash_table)
    (arr : List (Option Nat)) (sl : List Nat) (bl : Nat → List Nat) : Prop where
  array : t.array = some arr
  dchain : DChain t.nodes none t.shead sl
  stail : t.stail = sl.getLast?
  mem : ∀ a : Nat, a ∈ sl ↔ a < t.nodes.length
  nodup : sl.Nodup
  sorted : sl.Pairwise (fun a b => strcmp (keyAt t.nodes a) (keyAt t.nodes b) < 0)
  chain : ∀ (i : Nat) (p : Option Nat), arr[i]? = some p →
    Chain (fun n => n.next) t.nodes p (bl i)
  bnodup : ∀ i : Nat, (bl i).Nodup
  blt : ∀ (i a : Nat), a ∈ bl i → a < t.nodes.length
  bindex : ∀ (i a : Nat), a ∈ bl i → key_index (keyAt t.nodes a) t.size = i
  bmem : ∀ a : Nat, a < t.nodes.length →
    key_index (keyAt t.nodes a) t.size < arr.length ∧
      a ∈ bl (key_index (keyAt t.nodes a) t.size)

/-- Sorted insertion on the list of `(key, value)` pairs: the new pair goes
immediately before the first pair whose key is greater. -/
def ins_item (k v : List Char) : List (List Char × List Char) → List (List Char × List Char)
  | [] => [(k, v)]
  | e :: l => if strcmp k e.1 < 0 then (k, v) :: e :: l else e :: ins_item k v l

/-- Effect of a successful `shash_table_set` on the list of `(key, value)`
pairs of the sorted chain: the value of an existing key is replaced in place,
a new key is inserted at its sorted position. -/
def put (k v : List Char) (l : List (List Char × List Char)) : List (List Char × List Char) :=
  if k ∈ l.map Prod.fst then l.map (fun e => if e.1 = k then (k, v) else e)
  else ins_item k v l

/-- Value associated with `k` in a list of `(key, value)` pairs. -/
def lookup (k : List Char) (l : List (List Char × List Char)) : Option (List Char) :=
  (l.find? (fun e => decide (e.1 = k))).map Prod.snd

/-- Text of the items of a print: the rendered pairs separated by `", "`. -/
def print_body (m : List shash_node) : Bool → List Nat → List Char
  | _, [] => []
  | many, a :: l =>
    (if many then [',', ' '] else []) ++ print_item (keyAt m a) (valueAt m a) ++
      print_body m true l

/-- Expected output of a print for the sequence of `(key, value)` pairs `its`:
the pairs rendered as `'key': 'value'`, separated by `", "`, between braces and
followed by a newline. -/
def render (its : List (List Char × List Char)) : List Char :=
  ['{'] ++ List.intercalate [',', ' '] (its.map (fun e => print_item e.1 e.2)) ++ ['}', '\n']

/-! ## Reachable tables and sequences of calls -/

/-- Tables reachable from `shash_table_create` by calls of `shash_table_set`,
with any arguments and any allocation outcomes, successful or not. -/
inductive Reachable (key_index : List Char → Nat → Nat) : shash_table → Prop
  | create {n : Nat} {a b : Bool} {t : shash_table} :
      shash_table_create n a b = some t → Reachable key_index t
  | set {t t' : shash_table} {key value : Option (List Char)} {a b c : Bool} {r : Int} :
      Reachable key_index t →
      shash_table_set key_index (some t) key value a b c = some (r, some t') →
      Reachable key_index t'

/-- One call `shash_table_set(ht, key, value)` with the outcomes of the
allocations it may attempt. -/
structure set_call where
  key : List Char
  value : List Char
  keydup_ok : Bool
  valdup_ok : Bool
  new_ok : Bool
  deriving DecidableEq, Repr

/-- Runs a sequence of `shash_table_set` calls in which every call succeeds
(returns 1); the result is the final table, `none` when some call does not
return 1. -/
def run_sets (key_index : List Char → Nat → Nat) :
    Option shash_table → List set_call → Option (Option shash_table)
  | ht, [] => some ht
  | ht, c :: cs =>
    match shash_table_set key_index ht (some c.key) (some c.value)
        c.keydup_ok c.valdup_ok c.new_ok with
    | some (r, ht') => if r = 1 then run_sets key_index ht' cs else none
    | none => none

/-- Value of the last call of the sequence whose key is `k`. -/
def last_value (calls : List set_call) (k : List Char) : Option (List Char) :=
  calls.foldl (fun acc c => if c.key = k then some c.value else acc) none

/-! ## Concrete tables -/

/-- Result of `shash_table_create(16)`. -/
def table_empty : shash_table :=
  { size := 16, array := some (List.replicate 16 none), shead := none, stail := none,
    nodes := [] }

/-- Table after `set("a", "1")` on `table_empty`. -/
def table_a : shash_table :=
  { size := 16, array := some ((List.replicate 16 none).set 6 (some 0)),
    shead := some 0, stail := some 0,
    nodes := [{ key := ['a'], value := ['1'], next := none, sprev := none, snext := none }] }

/-- Table after `set("a", "1"); set("a", "2")` on `table_empty`. -/
def table_a2 : shash_table :=
  { size := 16, array := some ((List.replicate 16 none).set 6 (some 0)),
    shead := some 0, stail := some 0,
    nodes := [{ key := ['a'], value := ['2'], next := none, sprev := none, snext := none }] }

/-- Table after `set("a", "1"); set("b", "2")` on `table_empty`. -/
def table_ab : shash_table :=
  { size := 16, array := some (((List.replicate 16 none).set 6 (some 0)).set 7 (some 1)),
    shead := some 0, stail := some 1,
    nodes := [{ key := ['a'], value := ['1'], next := none, sprev := none, snext := some 1 },
              { key := ['b'], value := ['2'], next := none, sprev := some 0, snext := none }] }

/-- Table after `set("b", "2"); set("a", "1"); set("c", "3")` on `table_empty`. -/
def table_bac : shash_table :=
  { size := 16
    array := some ((((List.replicate 16 none).set 7 (some 0)).set 6 (some 1)).set 8 (some 2))
    shead := some 1, stail := some 2,
    nodes := [{ key := ['b'], value := ['2'], next := none, sprev := some 1, snext := some 2 },
              { key := ['a'], value := ['1'], next := none, sprev := none, snext := some 0 },
              { key := ['c'], value := ['3'], next := none, sprev := some 0, snext := none }] }

/-- Call `set(key, value)` in which every allocation succeeds. -/
def call (key value : String) : set_call :=
  { key := key.toList, value := value.toList, keydup_ok := true, valdup_ok := true,
    new_ok := true }

/-! ## Vocabulary of claims C11 to C20 -/

/-- The slot index that `key_index` gives for `k` is a slot of the bucket
array of `t`. -/
def index_ok (key_index : List Char → Nat → Nat) (t : shash_table) (k : List Char) : Prop :=
  ∃ arr, t.array = some arr ∧ key_index k t.size < arr.length

/-- Reference ordered insertion, in the words of the spec: the longest run of
entries at the front of `l` whose keys are all not greater than `k`, then the
new entry, then the rest of `l`. -/
def reference_insert (m : List shash_node) (k : List Char) (new : Nat) (l : List Nat) :
    List Nat :=
  l.takeWhile (fun a => decide (strcmp (keyAt m a) k ≤ 0)) ++
    new :: l.dropWhile (fun a => decide (strcmp (keyAt m a) k ≤ 0))

/-- Table in the middle of `set("b", "2")` on the table after `set("a", "1")`:
the node of `"b"` is allocated at address 1 and heads its bucket chain, and is
not yet in the sorted chain. -/
def table_a_pending_b : shash_table :=
  { size := 16, array := some (((List.replicate 16 none).set 6 (some 0)).set 7 (some 1)),
    shead := some 0, stail := some 0,
    nodes := [{ key := ['a'], value := ['1'], next := none, sprev := none, snext := none },
              { key := ['b'], value := ['2'], next := none, sprev := none, snext := none }] }

/-- Table after `set("b", "2"); set("a", "1")` on `table_empty`. -/
def table_ba : shash_table :=
  { size := 16, array := some (((List.replicate 16 none).set 7 (some 0)).set 6 (some 1)),
    shead := some 1, stail := some 0,
    nodes := [{ key := ['b'], value := ['2'], next := none, sprev := some 1, snext := none },
              { key := ['a'], value := ['1'], next := none, sprev := none, snext := some 0 }] }

end SortedHashTable

/-! # `0x02-functions_nested_loops/7-print_last_digit.c` -/

namespace PrintLastDigit

/-- Value of an `int` expression: `none` when the mathematical result is not
representable in 32 bits (signed overflow is undefined). -/
def int_value (x : Int) : Option Int :=
  if -2147483648 ≤ x ∧ x ≤ 2147483647 then some x else none

/-- Character that `_putchar` receives for the `int` argument `c` (conversion
to `char`, 8 bits).  `_putchar` itself is declared in `main.h`, which is not
among the sources: its effect is taken to be writing that character. -/
def to_char (c : Int) : Char := Char.ofNat (c % 256).toNat

/-- Function `print_last_digit`: the text written and the value returned.
`%` is the truncating remainder of C. -/
def print_last_digit (n : Int) : Option (List Char × Int) :=
  match int_value (Int.tmod n 10) with
  | none => none
  | some last0 =>
    match (if n < 0 then int_value (last0 * -1) else some last0) with
    | none => none
    | some last =>
      match int_value (last + 48) with
      | none => none
      | some c => some ([to_char c], last)

end PrintLastDigit

/-! # `0x05-pointers_arrays_strings/7-puts_half.c` -/

namespace PutsHalf

/-- Loop `for (i = last; str[i]; i++) _putchar(str[i]);` on the string whose
characters before the NUL are `str`: the text written.  Reading `str[i]` is
defined for `0 <= i <= length` only (`str[length]` is the NUL). -/
def puts_half_loop (str : List Char) : Nat → Int → Option (List Char)
  | 0, _ => none
  | fuel + 1, i =>
    if i < 0 then none
    else
      match str[i.toNat]? with
      | some c =>
        match puts_half_loop str fuel (i + 1) with
        | none => none
        | some rest => some (c :: rest)
      | none => if i.toNat = str.length then some [] else none

/-- Function `puts_half`: the text written.  `max` is not declared in the
source file (it comes from `main.h`, which is not among the sources) and is
taken as a parameter, an `int`; `/` is the truncating division of C.  The
first loop only counts the characters into `i` (an `int`). -/
def puts_half (max : Int) (str : List Char) : Option (List Char) :=
  if (str.length : Int) > 2147483647 then none
  else
    let last := Int.tdiv max 2
    match puts_half_loop str (str.length + 1) last with
    | none => none
    | some out => some (out ++ ['\n'])

end PutsHalf

/-! # Theorems on the sorted hash table -/

namespace SortedHashTable

/-! ## Lemmas: string comparison and memory -/

theorem strcmp_neg_iff (a b : List Char) : strcmp a b < 0 ↔ a < b := by
  induction a generalizing b with
  | nil =>
    cases b with
    | nil => simp [strcmp]
    | cons y ys => simp only [strcmp]; exact ⟨fun _ => List.Lex.nil, fun _ => by decide⟩
  | cons x xs ih =>
    cases b with
    | nil =>
      simp only [strcmp]
      exact ⟨fun h => absurd h (by decide), fun h => by cases h⟩
    | cons y ys =>
      simp only [strcmp]
      rcases lt_trichotomy x y with h | h | h
      · simp only [h, if_true]
        exact ⟨fun _ => List.Lex.rel h, fun _ => by decide⟩
      · subst h
        simp only [lt_irrefl, if_false, ih]
        exact ⟨fun h => List.Lex.cons h, fun h => by
          cases h with
          | cons h => exact h
          | rel h => exact absurd h (lt_irrefl _)⟩
      · simp only [h, not_lt_of_lt h, if_true, if_false]
        refine ⟨fun h2 => absurd h2 (by decide), fun h2 => ?_⟩
        cases h2 with
        | cons h3 => exact absurd h (lt_irrefl _)
        | rel h3 => exact absurd h3 (not_lt_of_lt h)

theorem strcmp_eq_zero_iff (a b : List Char) : strcmp a b = 0 ↔ a = b := by
  induction a generalizing b with
  | nil => cases b <;> simp [strcmp]
  | cons x xs ih =>
    cases b with
    | nil => simp [strcmp]
    | cons y ys =>
      simp only [strcmp]
      rcases lt_trichotomy x y with h | h | h
      · simp [h, ne_of_lt h]
      · subst h; simp [ih]
      · simp [h, not_lt_of_lt h, (ne_of_lt h).symm]

theorem get_set_self {m : List shash_node} {p : Nat} {n x : shash_node}
    (h : m[p]? = some n) : (m.set p x)[p]? = some x := by
  have hp : p < m.length := (List.getElem?_eq_some.mp h).1
  simp [List.getElem?_set, hp]

theorem get_set_other {m : List shash_node} {p q : Nat} {x : shash_node}
    (h : q ≠ p) : (m.set p x)[q]? = m[q]? := by
  simp [List.getElem?_set, Ne.symm h]

theorem write_next_eq {m : List shash_node} {p : Nat} {n : shash_node} (v : Option Nat)
    (h : m[p]? = some n) : write_next m p v = some (m.set p { n with next := v }) := by
  simp [write_next, h]

theorem write_sprev_eq {m : List shash_node} {p : Nat} {n : shash_node} (v : Option Nat)
    (h : m[p]? = some n) : write_sprev m p v = some (m.set p { n with sprev := v }) := by
  simp [write_sprev, h]

theorem write_snext_eq {m : List shash_node} {p : Nat} {n : shash_node} (v : Option Nat)
    (h : m[p]? = some n) : write_snext m p v = some (m.set p { n with snext := v }) := by
  simp [write_snext, h]

theorem Chain.frame {nxt : shash_node → Option Nat} {m m' : List shash_node} :
    ∀ {l : List Nat} {p : Option Nat}, Chain nxt m p l →
      (∀ a ∈ l, (m'[a]?).map nxt = (m[a]?).map nxt) → Chain nxt m' p l
  | [], _, h, _ => h
  | a :: l, p, ⟨hp, n, hn, hrest⟩, hf => by
    have ha := hf a (List.mem_cons_self _ _)
    rw [hn] at ha
    cases hn' : m'[a]? with
    | none => simp [hn'] at ha
    | some n' =>
      simp [hn'] at ha
      refine ⟨hp, n', hn', ?_⟩
      rw [ha]
      exact Chain.frame hrest (fun b hb => hf b (List.mem_cons_of_mem _ hb))

theorem DChain.frame_links {m m' : List shash_node} :
    ∀ {l : List Nat} {prev p : Option Nat}, DChain m prev p l →
      (∀ a ∈ l, (m'[a]?).map (fun n => (n.sprev, n.snext)) =
        (m[a]?).map (fun n => (n.sprev, n.snext))) → DChain m' prev p l
  | [], _, _, h, _ => h
  | a :: l, prev, p, ⟨hp, n, hn, hprev, hrest⟩, hf => by
    have ha := hf a (List.mem_cons_self _ _)
    rw [hn] at ha
    cases hn' : m'[a]? with
    | none => simp [hn'] at ha
    | some n' =>
      simp [hn'] at ha
      refine ⟨hp, n', hn', ha.1.trans hprev, ?_⟩
      rw [ha.2]
      exact DChain.frame_links hrest (fun b hb => hf b (List.mem_cons_of_mem _ hb))

theorem Chain.lt_length {nxt : shash_node → Option Nat} {m : List shash_node} :
    ∀ {l : List Nat} {p : Option Nat}, Chain nxt m p l → ∀ a ∈ l, a < m.length
  | [], _, _, a, ha => by cases ha
  | b :: l, _, ⟨_, n, hn, hrest⟩, a, ha => by
    rcases List.mem_cons.mp ha with h | h
    · subst h; exact (List.getElem?_eq_some.mp hn).1
    · exact Chain.lt_length hrest a h

theorem Chain.walk {nxt : shash_node → Option Nat} {m : List shash_node} :
    ∀ {l : List Nat} {p : Option Nat} (fuel : Nat), Chain nxt m p l → l.length ≤ fuel →
      chain_walk nxt m fuel p = some l
  | [], p, fuel, h, _ => by
    have : p = none := h
    subst this
    cases fuel <;> rfl
  | a :: l, p, 0, _, hf => by simp at hf
  | a :: l, p, fuel + 1, ⟨hp, n, hn, hrest⟩, hf => by
    subst hp
    have := Chain.walk fuel hrest (by simpa using hf)
    simp [chain_walk, hn, this]

theorem DChain.chain {m : List shash_node} :
    ∀ {l : List Nat} {prev p : Option Nat}, DChain m prev p l →
      Chain (fun n => n.snext) m p l
  | [], _, _, h => h
  | _ :: _, _, _, ⟨hp, n, hn, _, hrest⟩ => ⟨hp, n, hn, DChain.chain hrest⟩

theorem length_le_of_nodup_lt {l : List Nat} {n : Nat} (hnd : l.Nodup)
    (hlt : ∀ a ∈ l, a < n) : l.length ≤ n := by
  have h1 : l.toFinset ⊆ Finset.range n := by
    intro a ha
    exact Finset.mem_range.mpr (hlt a (List.mem_toFinset.mp ha))
  have h2 := Finset.card_le_card h1
  rw [List.toFinset_card_of_nodup hnd, Finset.card_range] at h2
  exact h2

/-! ## The sorted insertion -/

theorem write_next_spec {m : List shash_node} {p : Nat} {n : shash_node} (v : Option Nat)
    (h : m[p]? = some n) : ∃ m', write_next m p v = some m' ∧ m'.length = m.length ∧
      m'[p]? = some { n with next := v } ∧ ∀ q : Nat, q ≠ p → m'[q]? = m[q]? :=
  ⟨_, write_next_eq v h, List.length_set _ _ _, get_set_self h, fun _ hq => get_set_other hq⟩

theorem write_sprev_spec {m : List shash_node} {p : Nat} {n : shash_node} (v : Option Nat)
    (h : m[p]? = some n) : ∃ m', write_sprev m p v = some m' ∧ m'.length = m.length ∧
      m'[p]? = some { n with sprev := v } ∧ ∀ q : Nat, q ≠ p → m'[q]? = m[q]? :=
  ⟨_, write_sprev_eq v h, List.length_set _ _ _, get_set_self h, fun _ hq => get_set_other hq⟩

theorem write_snext_spec {m : List shash_node} {p : Nat} {n : shash_node} (v : Option Nat)
    (h : m[p]? = some n) : ∃ m', write_snext m p v = some m' ∧ m'.length = m.length ∧
      m'[p]? = some { n with snext := v } ∧ ∀ q : Nat, q ≠ p → m'[q]? = m[q]? :=
  ⟨_, write_snext_eq v h, List.length_set _ _ _, get_set_self h, fun _ hq => get_set_other hq⟩

theorem insert_before_spec (new : Nat) (nw sh : shash_node) (l : List Nat) (cur : Nat)
    (prev : Option Nat) (ht : shash_table) (fuel : Nat)
    (hnw : ht.nodes[new]? = some nw)
    (hd : DChain ht.nodes prev (some cur) (cur :: l))
    (hnew : new ∉ cur :: l) (hnd : (cur :: l).Nodup)
    (htl : ht.stail = (cur :: l).getLast?)
    (hprev : ∀ p, prev = some p → p ∉ cur :: l ∧ p ≠ new ∧
      ∃ pn, ht.nodes[p]? = some pn ∧ pn.snext = some cur)
    (hsh : ht.nodes[cur]? = some sh)
    (hlt : strcmp nw.key sh.key < 0) :
    ∃ ht', sorted_list_insert_loop new (fuel + 1) ht cur = some ht' ∧
      InsPost ht.nodes new prev (cur :: l) (new :: cur :: l) ht ht' := by
  obtain ⟨_, sh', hsh', hsp, hrest⟩ := hd
  rw [hsh] at hsh'
  cases hsh'
  have hcn : cur ≠ new := fun h => hnew (h ▸ List.mem_cons_self _ _)
  have hcl : cur ∉ l := (List.nodup_cons.mp hnd).1
  have hnl : new ∉ l := fun h => hnew (List.mem_cons_of_mem _ h)
  obtain ⟨m1, e1, len1, g1n, g1o⟩ := write_snext_spec (some cur) hnw
  have g1c : m1[cur]? = some sh := by rw [g1o cur hcn]; exact hsh
  obtain ⟨m2, e2, len2, g2n, g2o⟩ := write_sprev_spec prev g1n
  have g2c : m2[cur]? = some sh := by rw [g2o cur hcn]; exact g1c
  cases prev with
  | none =>
    obtain ⟨m3, e3, len3, g3c, g3o⟩ := write_sprev_spec (some new) g2c
    have g3n : m3[new]? = some { nw with snext := some cur, sprev := none } := by
      rw [g3o new (Ne.symm hcn)]; exact g2n
    have hother : ∀ a : Nat, a ≠ new → a ≠ cur → m3[a]? = ht.nodes[a]? := by
      intro a h1 h2
      rw [g3o a h2, g2o a h1, g1o a h1]
    refine ⟨{ ht with shead := some new, nodes := m3 }, by
      simp only [sorted_list_insert_loop, hnw, hsh, hlt, if_true, e1, g1c, hsp, e2,
        g2c, e3], ?_⟩
    refine ⟨?_, ?_, rfl, rfl, fun _ => rfl, fun h => absurd rfl h, ?_, ?_, ?_, ?_⟩
    · refine ⟨rfl, _, g3n, rfl, rfl, _, g3c, rfl, ?_⟩
      refine DChain.frame_links hrest (fun a ha => ?_)
      rw [hother a (fun h => hnl (h ▸ ha)) (fun h => hcl (h ▸ ha))]
    · show ht.stail = _
      rw [htl]
      simp [List.getLast?_cons_cons]
    · intro p pn h; cases h
    · intro a h1 h2 _
      exact hother a h1 (fun h => h2 (h ▸ List.mem_cons_self _ _))
    · intro a
      by_cases h1 : a = new
      · subst h1; rw [g3n, hnw]; rfl
      · by_cases h2 : a = cur
        · subst h2; rw [g3c, hsh]; rfl
        · rw [hother a h1 h2]
    · show m3.length = _
      rw [len3, len2, len1]
  | some p =>
    obtain ⟨hp1, hp2, pn, hpn, hpn2⟩ := hprev p rfl
    have hpc : p ≠ cur := fun h => hp1 (h ▸ List.mem_cons_self _ _)
    have hpl : p ∉ l := fun h => hp1 (List.mem_cons_of_mem _ h)
    have g2p : m2[p]? = some pn := by rw [g2o p hp2, g1o p hp2]; exact hpn
    obtain ⟨m3, e3, len3, g3p, g3o⟩ := write_snext_spec (some new) g2p
    have g3c : m3[cur]? = some sh := by rw [g3o cur (Ne.symm hpc)]; exact g2c
    obtain ⟨m4, e4, len4, g4c, g4o⟩ := write_sprev_spec (some new) g3c
    have g4n : m4[new]? = some { nw with snext := some cur, sprev := some p } := by
      rw [g4o new (Ne.symm hcn), g3o new (Ne.symm hp2)]; exact g2n
    have g4p : m4[p]? = some { pn with snext := some new } := by
      rw [g4o p hpc]; exact g3p
    have hother : ∀ a : Nat, a ≠ new → a ≠ cur → a ≠ p → m4[a]? = ht.nodes[a]? := by
      intro a h1 h2 h3
      rw [g4o a h2, g3o a h3, g2o a h1, g1o a h1]
    refine ⟨{ ht with nodes := m4 }, by
      simp only [sorted_list_insert_loop, hnw, hsh, hlt, if_true, e1, g1c, hsp, e2,
        g2c, e3, e4], ?_⟩
    refine ⟨?_, ?_, rfl, rfl, fun h => (by cases h), fun _ => rfl, ?_, ?_, ?_, ?_⟩
    · refine ⟨rfl, _, g4n, rfl, rfl, _, g4c, rfl, ?_⟩
      refine DChain.frame_links hrest (fun a ha => ?_)
      rw [hother a (fun h => hnl (h ▸ ha)) (fun h => hcl (h ▸ ha)) (fun h => hpl (h ▸ ha))]
    · show ht.stail = _
      rw [htl]
      simp [List.getLast?_cons_cons]
    · intro q qn h hq
      cases h
      rw [hpn] at hq
      cases hq
      exact g4p
    · intro a h1 h2 h3
      exact hother a h1 (fun h => h2 (h ▸ List.mem_cons_self _ _)) (fun h => h3 (h ▸ rfl))
    · intro a
      by_cases h1 : a = new
      · subst h1; rw [g4n, hnw]; rfl
      · by_cases h2 : a = cur
        · subst h2; rw [g4c, hsh]; rfl
        · by_cases h3 : a = p
          · subst h3; rw [g4p, hpn]; rfl
          · rw [hother a h1 h2 h3]
    · show m4.length = _
      rw [len4, len3, len2, len1]

theorem keyAt_eq {m : List shash_node} {a : Nat} {n : shash_node} (h : m[a]? = some n) :
    keyAt m a = n.key := by
  simp [keyAt, h]

theorem valueAt_eq {m : List shash_node} {a : Nat} {n : shash_node} (h : m[a]? = some n) :
    valueAt m a = n.value := by
  simp [valueAt, h]

theorem insert_append_spec (new : Nat) (nw sh : shash_node) (cur : Nat)
    (prev : Option Nat) (ht : shash_table) (fuel : Nat)
    (hnw : ht.nodes[new]? = some nw)
    (hd : DChain ht.nodes prev (some cur) [cur])
    (hnew : new ∉ [cur])
    (htl : ht.stail = [cur].getLast?)
    (hhd : prev = none → ht.shead = some cur)
    (hprev : ∀ p, prev = some p → p ∉ [cur] ∧ p ≠ new ∧
      ∃ pn, ht.nodes[p]? = some pn ∧ pn.snext = some cur)
    (hsh : ht.nodes[cur]? = some sh)
    (hlt : ¬ strcmp nw.key sh.key < 0) :
    ∃ ht', sorted_list_insert_loop new (fuel + 1) ht cur = some ht' ∧
      InsPost ht.nodes new prev [cur] [cur, new] ht ht' := by
  obtain ⟨_, sh', hsh', hsp, hrest⟩ := hd
  rw [hsh] at hsh'
  cases hsh'
  have hnone : sh.snext = none := hrest
  have hcn : cur ≠ new := fun h => hnew (h ▸ List.mem_cons_self _ _)
  have hst : ht.stail = some cur := by rw [htl]; rfl
  obtain ⟨m1, e1, len1, g1n, g1o⟩ := write_sprev_spec (some cur) hnw
  have g1c : m1[cur]? = some sh := by rw [g1o cur hcn]; exact hsh
  obtain ⟨m2, e2, len2, g2n, g2o⟩ := write_snext_spec none g1n
  have g2c : m2[cur]? = some sh := by rw [g2o cur hcn]; exact g1c
  obtain ⟨m3, e3, len3, g3c, g3o⟩ := write_snext_spec (some new) g2c
  have g3n : m3[new]? = some { nw with sprev := some cur, snext := none } := by
    rw [g3o new (Ne.symm hcn)]; exact g2n
  have hother : ∀ a : Nat, a ≠ new → a ≠ cur → m3[a]? = ht.nodes[a]? := by
    intro a h1 h2
    rw [g3o a h2, g2o a h1, g1o a h1]
  refine ⟨{ ht with stail := some new, nodes := m3 }, by
    simp only [sorted_list_insert_loop, hnw, hsh, hlt, if_false, hnone, hst, e1, g1c, e2, e3], ?_⟩
  refine ⟨?_, rfl, rfl, rfl, hhd, fun _ => rfl, ?_, ?_, ?_, ?_⟩
  · exact ⟨rfl, _, g3c, hsp, rfl, _, g3n, rfl, rfl⟩
  · intro p pn h hq
    obtain ⟨hp1, hp2, pn', hpn, hpn2⟩ := hprev p h
    rw [hq] at hpn
    cases hpn
    have hpc : p ≠ cur := fun h => hp1 (h ▸ List.mem_cons_self _ _)
    rw [hother p hp2 hpc, hq]
    cases pn
    simp only [List.head?_cons] at *
    simp_all
  · intro a h1 h2 _
    exact hother a h1 (fun h => h2 (h ▸ List.mem_cons_self _ _))
  · intro a
    by_cases h1 : a = new
    · subst h1; rw [g3n, hnw]; rfl
    · by_cases h2 : a = cur
      · subst h2; rw [g3c, hsh]; rfl
      · rw [hother a h1 h2]
  · show m3.length = _
    rw [len3, len2, len1]

theorem insert_loop_spec (new : Nat) (nw : shash_node) :
    ∀ (l : List Nat) (cur : Nat) (prev : Option Nat) (ht : shash_table) (fuel : Nat),
      ht.nodes[new]? = some nw →
      DChain ht.nodes prev (some cur) (cur :: l) →
      new ∉ cur :: l → (cur :: l).Nodup →
      ht.stail = (cur :: l).getLast? →
      (prev = none → ht.shead = some cur) →
      (∀ p, prev = some p → p ∉ cur :: l ∧ p ≠ new ∧
        ∃ pn, ht.nodes[p]? = some pn ∧ pn.snext = some cur) →
      l.length < fuel →
      ∃ ht', sorted_list_insert_loop new fuel ht cur = some ht' ∧
        InsPost ht.nodes new prev (cur :: l)
          (ins_sorted ht.nodes nw.key new (cur :: l)) ht ht' := by
  intro l
  induction l with
  | nil =>
    intro cur prev ht fuel hnw hd hnew hnd htl hhd hprev hfuel
    obtain ⟨f, rfl⟩ : ∃ f, fuel = f + 1 := ⟨fuel - 1, by omega⟩
    obtain ⟨sh, hsh⟩ : ∃ sh, ht.nodes[cur]? = some sh := by
      obtain ⟨_, sh, hsh, _⟩ := hd
      exact ⟨sh, hsh⟩
    by_cases hlt : strcmp nw.key sh.key < 0
    · have := insert_before_spec new nw sh [] cur prev ht f hnw hd hnew hnd htl hprev hsh hlt
      simpa only [ins_sorted, keyAt_eq hsh, hlt, if_true] using this
    · have := insert_append_spec new nw sh cur prev ht f hnw hd hnew htl hhd hprev hsh hlt
      simpa only [ins_sorted, keyAt_eq hsh, hlt, if_false] using this
  | cons nxt l ih =>
    intro cur prev ht fuel hnw hd hnew hnd htl hhd hprev hfuel
    obtain ⟨f, rfl⟩ : ∃ f, fuel = f + 1 := ⟨fuel - 1, by simp at hfuel; omega⟩
    obtain ⟨sh, hsh⟩ : ∃ sh, ht.nodes[cur]? = some sh := by
      obtain ⟨_, sh, hsh, _⟩ := hd
      exact ⟨sh, hsh⟩
    by_cases hlt : strcmp nw.key sh.key < 0
    · have := insert_before_spec new nw sh (nxt :: l) cur prev ht f hnw hd hnew hnd htl hprev
        hsh hlt
      simpa only [ins_sorted, keyAt_eq hsh, hlt, if_true] using this
    · obtain ⟨_, sh', hsh', hsp, hrest⟩ := hd
      rw [hsh] at hsh'
      cases hsh'
      have hnx : sh.snext = some nxt := hrest.1
      have hcn : cur ≠ new := fun h => hnew (h ▸ List.mem_cons_self _ _)
      have hnd' : (nxt :: l).Nodup := (List.nodup_cons.mp hnd).2
      have hcl : cur ∉ nxt :: l := (List.nodup_cons.mp hnd).1
      have hnew' : new ∉ nxt :: l := fun h => hnew (List.mem_cons_of_mem _ h)
      obtain ⟨ht', hrun, post⟩ := ih nxt (some cur) ht f hnw (hnx ▸ hrest) hnew' hnd'
        (by rw [htl, List.getLast?_cons_cons])
        (fun h => by cases h)
        (fun p hp => by
          cases hp
          exact ⟨hcl, hcn, sh, hsh, hnx⟩)
        (by simp at hfuel; omega)
      refine ⟨ht', by
        simp only [sorted_list_insert_loop, hnw, hsh, hlt, if_false, hnx]
        exact hrun, ?_⟩
      have hL : ins_sorted ht.nodes nw.key new (cur :: nxt :: l) =
          cur :: ins_sorted ht.nodes nw.key new (nxt :: l) := by
        simp only [ins_sorted, keyAt_eq hsh, hlt, if_false]
      rw [hL]
      have hne : ∀ L : List Nat, (cur :: L).head? = some cur := fun _ => rfl
      have hLne : ins_sorted ht.nodes nw.key new (nxt :: l) ≠ [] := by
        simp only [ins_sorted]; split <;> simp
      refine ⟨?_, ?_, post.size, post.array, ?_, ?_, ?_, ?_, post.fields, post.length⟩
      · exact ⟨rfl, _, post.pred cur sh rfl hsh, hsp, post.dchain⟩
      · rw [post.stail]
        cases hL' : ins_sorted ht.nodes nw.key new (nxt :: l) with
        | nil => exact absurd hL' hLne
        | cons x xs => rw [List.getLast?_cons_cons]
      · intro h
        rw [post.shead_some (by simp)]
        exact hhd h
      · intro _
        exact post.shead_some (by simp)
      · intro p pn h hq
        obtain ⟨hp1, hp2, pn', hpn, hpn2⟩ := hprev p h
        rw [hq] at hpn
        cases hpn
        have hpc : p ≠ cur := fun h => hp1 (h ▸ List.mem_cons_self _ _)
        rw [post.frame p hp2 (fun h => hp1 (List.mem_cons_of_mem _ h))
          (fun h => hpc (Option.some.inj h).symm), hq]
        cases pn
        simp only [List.head?_cons] at *
        simp_all
      · intro a h1 h2 h3
        exact post.frame a h1 (fun h => h2 (List.mem_cons_of_mem _ h))
          (fun h => h2 ((Option.some.inj h) ▸ List.mem_cons_self _ _))

theorem sorted_list_insert_spec (new : Nat) (nw : shash_node) (sl : List Nat) (ht : shash_table)
    (hnw : ht.nodes[new]? = some nw)
    (hd : DChain ht.nodes none ht.shead sl)
    (hnew : new ∉ sl) (hnd : sl.Nodup)
    (htl : ht.stail = sl.getLast?)
    (hlen : sl.length ≤ ht.nodes.length) :
    ∃ ht', sorted_list_insert ht new = some ht' ∧
      InsPost ht.nodes new none sl (ins_sorted ht.nodes nw.key new sl) ht ht' := by
  cases sl with
  | nil =>
    have hnone : ht.shead = none := hd
    obtain ⟨m1, e1, len1, g1n, g1o⟩ := write_sprev_spec none hnw
    obtain ⟨m2, e2, len2, g2n, g2o⟩ := write_snext_spec none g1n
    refine ⟨{ ht with shead := some new, stail := some new, nodes := m2 }, by
      simp only [sorted_list_insert, hnone, e1, e2], ?_⟩
    refine ⟨?_, rfl, rfl, rfl, fun _ => rfl, fun h => absurd rfl h, ?_, ?_, ?_, ?_⟩
    · exact ⟨rfl, _, g2n, rfl, rfl⟩
    · intro p pn h; cases h
    · intro a h1 _ _
      show m2[a]? = _
      rw [g2o a h1, g1o a h1]
    · intro a
      show (m2[a]?).map _ = _
      by_cases h1 : a = new
      · subst h1; rw [g2n, hnw]; rfl
      · rw [g2o a h1, g1o a h1]
    · show m2.length = _
      rw [len2, len1]
  | cons cur l =>
    have hcur : ht.shead = some cur := hd.1
    have hd' : DChain ht.nodes none (some cur) (cur :: l) := hcur ▸ hd
    obtain ⟨ht', hrun, post⟩ := insert_loop_spec new nw l cur none ht ht.nodes.length hnw hd'
      hnew hnd htl (fun _ => hcur) (fun p h => by cases h) (by simp at hlen; omega)
    exact ⟨ht', by simp only [sorted_list_insert, hcur]; exact hrun, post⟩

theorem ins_sorted_perm (m : List shash_node) (k : List Char) (new : Nat) :
    ∀ l : List Nat, (ins_sorted m k new l).Perm (new :: l)
  | [] => List.Perm.refl _
  | a :: l => by
    simp only [ins_sorted]
    split
    · exact List.Perm.refl _
    · exact ((ins_sorted_perm m k new l).cons a).trans (List.Perm.swap new a l)

theorem ins_sorted_congr {m m' : List shash_node} (k : List Char) (new : Nat) :
    ∀ l : List Nat, (∀ a ∈ l, keyAt m' a = keyAt m a) →
      ins_sorted m' k new l = ins_sorted m k new l
  | [], _ => rfl
  | a :: l, h => by
    simp only [ins_sorted, h a (List.mem_cons_self _ _),
      ins_sorted_congr k new l (fun b hb => h b (List.mem_cons_of_mem _ hb))]

theorem ins_sorted_pairwise (m : List shash_node) (k : List Char) (new : Nat)
    (hk : keyAt m new = k) :
    ∀ l : List Nat, l.Pairwise (fun a b => strcmp (keyAt m a) (keyAt m b) < 0) →
      (∀ a ∈ l, keyAt m a ≠ k) →
      (ins_sorted m k new l).Pairwise (fun a b => strcmp (keyAt m a) (keyAt m b) < 0)
  | [], _, _ => List.pairwise_singleton _ _
  | a :: l, hp, hne => by
    simp only [ins_sorted]
    have hpa := List.pairwise_cons.mp hp
    split
    · rename_i hlt
      refine List.pairwise_cons.mpr ⟨?_, hp⟩
      intro b hb
      rw [hk]
      rcases List.mem_cons.mp hb with h | h
      · subst h; exact hlt
      · have := hpa.1 b h
        rw [strcmp_neg_iff] at *
        exact lt_trans hlt this
    · rename_i hlt
      refine List.pairwise_cons.mpr ⟨?_, ins_sorted_pairwise m k new hk l hpa.2
        (fun b hb => hne b (List.mem_cons_of_mem _ hb))⟩
      intro b hb
      rcases List.mem_cons.mp ((ins_sorted_perm m k new l).mem_iff.mp hb) with h | h
      · subst h
        rw [hk]
        have h1 := hne a (List.mem_cons_self _ _)
        rw [strcmp_neg_iff] at *
        exact lt_of_le_of_ne (not_lt.mp hlt) h1
      · exact hpa.1 b h

theorem bucket_scan_spec {m : List shash_node} (k : List Char) :
    ∀ {l : List Nat} {p : Option Nat} (fuel : Nat), Chain (fun n => n.next) m p l →
      l.length ≤ fuel →
      bucket_scan m k fuel p = some (l.find? (fun a => decide (keyAt m a = k)))
  | [], p, fuel, h, _ => by
    have : p = none := h
    subst this
    cases fuel <;> rfl
  | a :: l, p, 0, _, hf => by simp at hf
  | a :: l, p, fuel + 1, ⟨hp, n, hn, hrest⟩, hf => by
    subst hp
    have ih := bucket_scan_spec k fuel hrest (by simpa using hf)
    have ih' : bucket_scan m k fuel n.next = _ := ih
    by_cases hk : n.key = k
    · subst hk
      have : strcmp n.key n.key = 0 := (strcmp_eq_zero_iff _ _).mpr rfl
      simp only [bucket_scan, hn, this, if_true, List.find?_cons, keyAt_eq hn, decide_True]
    · have : ¬ strcmp k n.key = 0 := fun h => hk ((strcmp_eq_zero_iff _ _).mp h).symm
      simp only [bucket_scan, hn, this, if_false, List.find?_cons, keyAt_eq hn, hk,
        decide_False, ih']

/-! ## The representation invariant -/

theorem keyAt_of_fields {m m' : List shash_node} {a : Nat}
    (h : (m'[a]?).map (fun n : shash_node => (n.key, n.value, n.next)) =
      (m[a]?).map (fun n : shash_node => (n.key, n.value, n.next))) :
    keyAt m' a = keyAt m a ∧ valueAt m' a = valueAt m a ∧
      (m'[a]?).map (fun n : shash_node => n.next) = (m[a]?).map (fun n : shash_node => n.next) := by
  unfold keyAt valueAt
  cases h1 : m'[a]? <;> cases h2 : m[a]? <;> simp [h1, h2] at h ⊢
  exact ⟨h.1, h.2.1, h.2.2⟩

section Invariant

variable {key_index : List Char → Nat → Nat} {t : shash_table} {arr : List (Option Nat)}
  {sl : List Nat} {bl : Nat → List Nat}

theorem Inv.sl_length (h : Inv key_index t arr sl bl) : sl.length ≤ t.nodes.length :=
  length_le_of_nodup_lt h.nodup (fun a ha => (h.mem a).mp ha)

theorem Inv.bl_length (h : Inv key_index t arr sl bl) (i : Nat) :
    (bl i).length ≤ t.nodes.length :=
  length_le_of_nodup_lt (h.bnodup i) (h.blt i)

theorem Inv.sorted_walk_eq (h : Inv key_index t arr sl bl) : sorted_walk t = some sl :=
  Chain.walk _ h.dchain.chain h.sl_length

theorem Inv.sorted_chain_eq (h : Inv key_index t arr sl bl) : sorted_chain t = sl := by
  unfold sorted_chain
  rw [h.sorted_walk_eq]
  rfl

theorem Inv.bucket_walk_eq (h : Inv key_index t arr sl bl) {i : Nat} (hi : i < arr.length) :
    bucket_walk t i = some (bl i) := by
  unfold bucket_walk
  have hp : arr[i]? = some arr[i] := List.getElem?_eq_getElem hi
  simp only [h.array, hp]
  exact Chain.walk _ (h.chain i _ hp) (h.bl_length i)

theorem Inv.key_unique (h : Inv key_index t arr sl bl) {a b : Nat}
    (ha : a < t.nodes.length) (hb : b < t.nodes.length)
    (hk : keyAt t.nodes a = keyAt t.nodes b) : a = b := by
  by_contra hne
  have hp : sl.Pairwise (fun a b => keyAt t.nodes a ≠ keyAt t.nodes b) :=
    h.sorted.imp (fun {x y} hxy => by
      rw [strcmp_neg_iff] at hxy
      exact ne_of_lt hxy)
  exact hp.forall (fun x y hxy => hxy.symm) ((h.mem a).mpr ha) ((h.mem b).mpr hb) hne hk

/-- Result of the bucket scan on a table that satisfies the invariant: the
address of the node whose key is `k`, when there is one. -/
theorem Inv.scan_found (h : Inv key_index t arr sl bl) {b : Nat} {k : List Char}
    (hb : b < t.nodes.length) (hk : keyAt t.nodes b = k) :
    ∃ first, arr[key_index k t.size]? = some first ∧
      bucket_scan t.nodes k t.nodes.length first = some (some b) := by
  obtain ⟨hi, hmem⟩ := h.bmem b hb
  rw [hk] at hi hmem
  refine ⟨_, List.getElem?_eq_getElem hi, ?_⟩
  rw [bucket_scan_spec k _ (h.chain _ _ (List.getElem?_eq_getElem hi)) (h.bl_length _)]
  cases hf : List.find? (fun a => decide (keyAt t.nodes a = k)) (bl (key_index k t.size)) with
  | none =>
    have := List.find?_eq_none.mp hf b hmem
    simp [hk] at this
  | some b' =>
    have h1 := List.find?_some hf
    have h2 := List.mem_of_find?_eq_some hf
    simp only [decide_eq_true_eq] at h1
    rw [h.key_unique (h.blt _ _ h2) hb (h1.trans hk.symm)]

theorem Inv.scan_absent (h : Inv key_index t arr sl bl) {k : List Char}
    (hi : key_index k t.size < arr.length)
    (hk : ∀ a : Nat, a < t.nodes.length → keyAt t.nodes a ≠ k) :
    ∃ first, arr[key_index k t.size]? = some first ∧
      Chain (fun n => n.next) t.nodes first (bl (key_index k t.size)) ∧
      bucket_scan t.nodes k t.nodes.length first = some none := by
  refine ⟨_, List.getElem?_eq_getElem hi, h.chain _ _ (List.getElem?_eq_getElem hi), ?_⟩
  rw [bucket_scan_spec k _ (h.chain _ _ (List.getElem?_eq_getElem hi)) (h.bl_length _)]
  congr 1
  rw [List.find?_eq_none]
  intro a ha
  simp only [decide_eq_true_eq]
  exact hk a (h.blt _ _ ha)

/-- The update branch of `shash_table_set` keeps the invariant, with the same
chains. -/
theorem Inv.update (h : Inv key_index t arr sl bl) {b : Nat} {n : shash_node}
    (hn : t.nodes[b]? = some n) (v : List Char) :
    Inv key_index { t with nodes := t.nodes.set b { n with key := n.key, value := v } }
      arr sl bl := by
  have hget : ∀ a : Nat, (t.nodes.set b { n with key := n.key, value := v })[a]? =
      if a = b then some { n with key := n.key, value := v } else t.nodes[a]? := by
    intro a
    by_cases hab : a = b
    · subst hab; simp only [if_true]; exact get_set_self hn
    · simp only [hab, if_false]; exact get_set_other hab
  have hkey : ∀ a : Nat, keyAt (t.nodes.set b { n with key := n.key, value := v }) a =
      keyAt t.nodes a := by
    intro a
    unfold keyAt
    rw [hget a]
    by_cases hab : a = b
    · subst hab; simp [hn]
    · simp [hab]
  have hlen : (t.nodes.set b { n with key := n.key, value := v }).length = t.nodes.length :=
    List.length_set _ _ _
  refine ⟨h.array, ?_, h.stail, ?_, h.nodup, ?_, ?_, h.bnodup, ?_, ?_, ?_⟩
  · refine DChain.frame_links h.dchain (fun a _ => ?_)
    show ((t.nodes.set b _)[a]?).map _ = _
    rw [hget a]
    by_cases hab : a = b
    · subst hab; simp [hn]
    · simp [hab]
  · intro a
    show a ∈ sl ↔ a < (t.nodes.set b _).length
    rw [hlen]; exact h.mem a
  · show sl.Pairwise (fun a b' => strcmp (keyAt (t.nodes.set b _) a)
      (keyAt (t.nodes.set b _) b') < 0)
    simp only [hkey]; exact h.sorted
  · intro i p hp
    refine Chain.frame (h.chain i p hp) (fun a _ => ?_)
    show ((t.nodes.set b _)[a]?).map _ = _
    rw [hget a]
    by_cases hab : a = b
    · subst hab; simp [hn]
    · simp [hab]
  · intro i a ha
    show a < (t.nodes.set b _).length
    rw [hlen]; exact h.blt i a ha
  · intro i a ha
    show key_index (keyAt (t.nodes.set b _) a) t.size = i
    rw [hkey]; exact h.bindex i a ha
  · intro a ha
    show key_index (keyAt (t.nodes.set b _) a) t.size < _ ∧
      a ∈ bl (key_index (keyAt (t.nodes.set b _) a) t.size)
    rw [hkey]
    exact h.bmem a (by rw [hlen] at ha; exact ha)

end Invariant

section Insert

variable {key_index : List Char → Nat → Nat} {t : shash_table} {arr : List (Option Nat)}
  {sl : List Nat} {bl : Nat → List Nat}

/-- The insert branch of `shash_table_set` on a table that satisfies the
invariant and holds no node with key `k`: the call returns 1, and the new
table satisfies the invariant with the new node (at the first free address)
at the head of its bucket chain and at its sorted position. -/
theorem Inv.insert (h : Inv key_index t arr sl bl) {k : List Char} (v : List Char)
    (hk : k ≠ []) (hi : key_index k t.size < arr.length)
    (habs : ∀ a : Nat, a < t.nodes.length → keyAt t.nodes a ≠ k) :
    ∃ t1, shash_table_set key_index (some t) (some k) (some v) true true true =
        some (1, some t1) ∧
      Inv key_index t1 (arr.set (key_index k t.size) (some t.nodes.length))
        (ins_sorted t.nodes k t.nodes.length sl)
        (Function.update bl (key_index k t.size)
          (t.nodes.length :: bl (key_index k t.size))) ∧
      t1.size = t.size ∧ t1.nodes.length = t.nodes.length + 1 ∧
      keyAt t1.nodes t.nodes.length = k ∧ valueAt t1.nodes t.nodes.length = v ∧
      (∀ a : Nat, a < t.nodes.length →
        keyAt t1.nodes a = keyAt t.nodes a ∧ valueAt t1.nodes a = valueAt t.nodes a) := by
  obtain ⟨first, hfirst, hchain, hscan⟩ := h.scan_absent hi habs
  -- the memory after the allocation and after `new->next = ht->array[index]`
  have g0n : (t.nodes ++ [fresh_node k v])[t.nodes.length]? = some (fresh_node k v) :=
    List.getElem?_concat_length _ _
  have g0o : ∀ a : Nat, a < t.nodes.length → (t.nodes ++ [fresh_node k v])[a]? = t.nodes[a]? :=
    fun a ha => List.getElem?_append_left ha
  obtain ⟨m2, e2, len2, g2n, g2o⟩ := write_next_spec first g0n
  have hold : ∀ a : Nat, a < t.nodes.length → m2[a]? = t.nodes[a]? := by
    intro a ha
    rw [g2o a (Nat.ne_of_lt ha), g0o a ha]
  have hlen2 : m2.length = t.nodes.length + 1 := by rw [len2]; simp
  have hnew : t.nodes.length ∉ sl := fun hm => Nat.lt_irrefl _ ((h.mem _).mp hm)
  have hd2 : DChain m2 none t.shead sl :=
    DChain.frame_links h.dchain (fun a ha => by rw [hold a ((h.mem a).mp ha)])
  obtain ⟨t1, hrun, post⟩ := sorted_list_insert_spec t.nodes.length _ sl
    { t with array := some (arr.set (key_index k t.size) (some t.nodes.length)), nodes := m2 }
    g2n hd2 hnew h.nodup h.stail (by show sl.length ≤ m2.length; have := h.sl_length; omega)
  have hkeys2 : ∀ a : Nat, a < t.nodes.length → keyAt m2 a = keyAt t.nodes a := by
    intro a ha; unfold keyAt; rw [hold a ha]
  have hvals2 : ∀ a : Nat, a < t.nodes.length → valueAt m2 a = valueAt t.nodes a := by
    intro a ha; unfold valueAt; rw [hold a ha]
  have hkey2n : keyAt m2 t.nodes.length = k := by rw [keyAt_eq g2n]; rfl
  have hval2n : valueAt m2 t.nodes.length = v := by rw [valueAt_eq g2n]; rfl
  have hL : ins_sorted m2 k t.nodes.length sl = ins_sorted t.nodes k t.nodes.length sl :=
    ins_sorted_congr k _ sl (fun a ha => hkeys2 a ((h.mem a).mp ha))
  have hpost : InsPost m2 t.nodes.length none sl (ins_sorted t.nodes k t.nodes.length sl)
      { t with array := some (arr.set (key_index k t.size) (some t.nodes.length)),
               nodes := m2 } t1 := hL ▸ post
  have hf := fun a => keyAt_of_fields (post.fields a)
  have hkeys1 : ∀ a : Nat, a < t.nodes.length → keyAt t1.nodes a = keyAt t.nodes a :=
    fun a ha => ((hf a).1).trans (hkeys2 a ha)
  have hkey1n : keyAt t1.nodes t.nodes.length = k := ((hf _).1).trans hkey2n
  have hlen1 : t1.nodes.length = t.nodes.length + 1 := by rw [post.length]; exact hlen2
  have hsize : t1.size = t.size := post.size
  have hperm := ins_sorted_perm t.nodes k t.nodes.length sl
  have hkeyall : ∀ a : Nat, keyAt t1.nodes a = keyAt m2 a := fun a => (hf a).1
  refine ⟨t1, ?_, ⟨post.array, (hpost.shead_none rfl) ▸ hpost.dchain, hpost.stail, ?_, ?_, ?_, ?_, ?_, ?_, ?_, ?_⟩,
    hsize, hlen1, hkey1n, ((hf _).2.1).trans hval2n,
    fun a ha => ⟨hkeys1 a ha, ((hf a).2.1).trans (hvals2 a ha)⟩⟩
  · simp only [shash_table_set, h.array, hk, if_false, Bool.not_true, hfirst, hscan,
      create_shash_node, if_true, e2, hrun]
    simp
  · intro a
    rw [hperm.mem_iff, List.mem_cons, h.mem a, hlen1]
    omega
  · exact hperm.nodup_iff.mpr (List.nodup_cons.mpr ⟨hnew, h.nodup⟩)
  · simp only [hkeyall]
    rw [← hL]
    refine ins_sorted_pairwise m2 k _ hkey2n sl ?_ ?_
    · refine h.sorted.imp_of_mem (fun {a b} ha hb hab => ?_)
      rw [hkeys2 a ((h.mem a).mp ha), hkeys2 b ((h.mem b).mp hb)]
      exact hab
    · intro a ha
      rw [hkeys2 a ((h.mem a).mp ha)]
      exact habs a ((h.mem a).mp ha)
  · intro i p hp
    have hnext : ∀ a : Nat, a < t.nodes.length →
        (t1.nodes[a]?).map (fun n : shash_node => n.next) =
          (t.nodes[a]?).map (fun n : shash_node => n.next) := by
      intro a ha
      rw [(hf a).2.2, hold a ha]
    by_cases hii : i = key_index k t.size
    · subst hii
      rw [List.getElem?_set_self hi] at hp
      cases hp
      rw [Function.update_same]
      have h1 := (hf t.nodes.length).2.2
      rw [g2n] at h1
      cases hn1 : t1.nodes[t.nodes.length]? with
      | none => simp [hn1] at h1
      | some n1 =>
        simp [hn1] at h1
        refine ⟨rfl, n1, hn1, ?_⟩
        show Chain _ _ n1.next _
        rw [h1]
        exact Chain.frame hchain (fun a ha => hnext a (h.blt _ a ha))
    · rw [List.getElem?_set_ne (Ne.symm hii)] at hp
      rw [Function.update_noteq hii]
      exact Chain.frame (h.chain i p hp) (fun a ha => hnext a (h.blt _ a ha))
  · intro i
    by_cases hii : i = key_index k t.size
    · subst hii
      rw [Function.update_same]
      exact List.nodup_cons.mpr ⟨fun hm => Nat.lt_irrefl _ (h.blt _ _ hm), h.bnodup _⟩
    · rw [Function.update_noteq hii]; exact h.bnodup i
  · intro i a ha
    rw [hlen1]
    by_cases hii : i = key_index k t.size
    · subst hii
      rw [Function.update_same] at ha
      rcases List.mem_cons.mp ha with h1 | h1
      · omega
      · have := h.blt _ a h1; omega
    · rw [Function.update_noteq hii] at ha
      have := h.blt _ a ha; omega
  · intro i a ha
    rw [hsize]
    by_cases hii : i = key_index k t.size
    · subst hii
      rw [Function.update_same] at ha
      rcases List.mem_cons.mp ha with h1 | h1
      · subst h1; rw [hkey1n]
      · rw [hkeys1 a (h.blt _ a h1)]; exact h.bindex _ a h1
    · rw [Function.update_noteq hii] at ha
      rw [hkeys1 a (h.blt _ a ha)]; exact h.bindex _ a ha
  · intro a ha
    rw [hsize, List.length_set]
    rw [hlen1] at ha
    by_cases han : a = t.nodes.length
    · subst han
      rw [hkey1n, Function.update_same]
      exact ⟨hi, List.mem_cons_self _ _⟩
    · have ha' : a < t.nodes.length := by omega
      rw [hkeys1 a ha']
      obtain ⟨h1, h2⟩ := h.bmem a ha'
      refine ⟨h1, ?_⟩
      by_cases hii : key_index (keyAt t.nodes a) t.size = key_index k t.size
      · rw [hii, Function.update_same]
        exact List.mem_cons_of_mem _ (hii ▸ h2)
      · rw [Function.update_noteq hii]; exact h2

end Insert

theorem ins_sorted_map (m m' : List shash_node) (k v : List Char) (new : Nat)
    (hn : keyAt m' new = k ∧ valueAt m' new = v) :
    ∀ l : List Nat, (∀ a ∈ l, keyAt m' a = keyAt m a ∧ valueAt m' a = valueAt m a) →
      (ins_sorted m k new l).map (fun a => (keyAt m' a, valueAt m' a)) =
        ins_item k v (l.map (fun a => (keyAt m a, valueAt m a)))
  | [], _ => by simp [ins_sorted, ins_item, hn.1, hn.2]
  | a :: l, h => by
    have ha := h a (List.mem_cons_self _ _)
    have hl : ∀ b ∈ l, keyAt m' b = keyAt m b ∧ valueAt m' b = valueAt m b :=
      fun b hb => h b (List.mem_cons_of_mem _ hb)
    have hmap : l.map (fun a => (keyAt m' a, valueAt m' a)) =
        l.map (fun a => (keyAt m a, valueAt m a)) :=
      List.map_congr_left (fun b hb => by rw [(hl b hb).1, (hl b hb).2])
    simp only [ins_sorted, ins_item, List.map_cons]
    split
    · simp only [List.map_cons, hn.1, hn.2, ha.1, ha.2, hmap]
    · simp only [List.map_cons, ha.1, ha.2, ins_sorted_map m m' k v new hn l hl]

section Abstract

variable {key_index : List Char → Nat → Nat} {t : shash_table} {arr : List (Option Nat)}
  {sl : List Nat} {bl : Nat → List Nat}

theorem Inv.items_eq (h : Inv key_index t arr sl bl) :
    items t = sl.map (fun a => (keyAt t.nodes a, valueAt t.nodes a)) := by
  unfold items
  rw [h.sorted_chain_eq]

theorem Inv.mem_keys (h : Inv key_index t arr sl bl) (k : List Char) :
    k ∈ (items t).map Prod.fst ↔ ∃ a : Nat, a < t.nodes.length ∧ keyAt t.nodes a = k := by
  rw [h.items_eq]
  simp only [List.mem_map, Prod.exists]
  constructor
  · rintro ⟨k', v', ⟨a, ha, he⟩, rfl⟩
    exact ⟨a, (h.mem a).mp ha, (Prod.mk.inj he).1⟩
  · rintro ⟨a, ha, rfl⟩
    exact ⟨_, _, ⟨a, (h.mem a).mpr ha, rfl⟩, rfl⟩

theorem Inv.create (key_index : List Char → Nat → Nat) {n : Nat} {a b : Bool}
    (hc : shash_table_create n a b = some t) :
    Inv key_index t (List.replicate ((8 * n % 2 ^ 64) / 8) none) [] (fun _ => []) := by
  unfold shash_table_create at hc
  cases a <;> cases b <;> simp at hc
  subst hc
  refine ⟨rfl, rfl, rfl, ?_, List.nodup_nil, List.Pairwise.nil, ?_, fun _ => List.nodup_nil,
    ?_, ?_, ?_⟩
  · intro a; simp
  · intro i p hp
    have := List.getElem?_eq_some.mp hp
    obtain ⟨_, h2⟩ := this
    simp at h2
    exact h2.symm
  · intro i a ha; cases ha
  · intro i a ha; cases ha
  · intro a ha; simp at ha

theorem Inv.items_update (h : Inv key_index t arr sl bl) {b : Nat} {n : shash_node}
    (hn : t.nodes[b]? = some n) (v : List Char) :
    items { t with nodes := t.nodes.set b { n with key := n.key, value := v } } =
      put n.key v (items t) := by
  have hb : b < t.nodes.length := (List.getElem?_eq_some.mp hn).1
  have hin : n.key ∈ (items t).map Prod.fst :=
    (h.mem_keys n.key).mpr ⟨b, hb, keyAt_eq hn⟩
  rw [(h.update hn v).items_eq, put, if_pos hin, h.items_eq, List.map_map]
  refine List.map_congr_left (fun a ha => ?_)
  have ha' := (h.mem a).mp ha
  show (keyAt (t.nodes.set b _) a, valueAt (t.nodes.set b _) a) = _
  by_cases hab : a = b
  · subst hab
    have := get_set_self (x := { n with key := n.key, value := v }) hn
    simp [keyAt, valueAt, this, hn]
  · have := get_set_other (m := t.nodes) (x := { n with key := n.key, value := v }) hab
    have hk : keyAt t.nodes a ≠ n.key := fun hk =>
      hab (h.key_unique ha' hb (hk.trans (keyAt_eq hn).symm))
    simp only [keyAt, valueAt, this, Function.comp]
    simp only [keyAt] at hk
    simp [hk]

end Abstract

section SetResult

variable {key_index : List Char → Nat → Nat} {t : shash_table} {arr : List (Option Nat)}
  {sl : List Nat} {bl : Nat → List Nat}

/-- Every defined outcome of `shash_table_set` on a table that satisfies the
invariant: either 0 is returned and the table is untouched, or 1 is returned
after an update in place or after the insertion of a new node. -/
theorem Inv.set_result (h : Inv key_index t arr sl bl) {key value : Option (List Char)}
    {a b c : Bool} {r : Int} {ot : Option shash_table}
    (hrun : shash_table_set key_index (some t) key value a b c = some (r, ot)) :
    (r = 0 ∧ ot = some t) ∨
    (r = 1 ∧ a = true ∧ b = true ∧ ∃ k v t', key = some k ∧ value = some v ∧ k ≠ [] ∧
      ot = some t' ∧
      ((∃ p n, t.nodes[p]? = some n ∧ n.key = k ∧
          t' = { t with nodes := t.nodes.set p { n with key := n.key, value := v } }) ∨
       ((∀ x : Nat, x < t.nodes.length → keyAt t.nodes x ≠ k) ∧ c = true ∧
          key_index k t.size < arr.length ∧
          shash_table_set key_index (some t) (some k) (some v) true true true =
            some (1, some t')))) := by
  cases key with
  | none =>
    simp only [shash_table_set, h.array] at hrun
    cases hrun; exact Or.inl ⟨rfl, rfl⟩
  | some k =>
    by_cases hk : k = []
    · simp only [shash_table_set, h.array, hk, if_true] at hrun
      cases hrun; exact Or.inl ⟨rfl, rfl⟩
    · cases a with
      | false =>
        simp only [shash_table_set, h.array, hk, if_false, Bool.not_false, if_true] at hrun
        cases hrun; exact Or.inl ⟨rfl, rfl⟩
      | true =>
        cases value with
        | none => simp [shash_table_set, h.array, hk] at hrun
        | some v =>
          cases b with
          | false =>
            simp only [shash_table_set, h.array, hk, if_false, Bool.not_false, Bool.not_true,
              if_true] at hrun
            simp at hrun
            exact Or.inl ⟨hrun.1.symm, hrun.2.symm⟩
          | true =>
            by_cases hi : key_index k t.size < arr.length
            · by_cases hex : ∃ x : Nat, x < t.nodes.length ∧ keyAt t.nodes x = k
              · obtain ⟨p, hp, hkp⟩ := hex
                obtain ⟨first, hfirst, hscan⟩ := h.scan_found hp hkp
                obtain ⟨n, hn⟩ : ∃ n, t.nodes[p]? = some n :=
                  ⟨_, List.getElem?_eq_getElem hp⟩
                have hnk : n.key = k := (keyAt_eq hn).symm.trans hkp
                simp only [shash_table_set, h.array, hk, if_false, Bool.not_true, hfirst,
                  hscan, hn] at hrun
                simp at hrun
                refine Or.inr ⟨hrun.1.symm, rfl, rfl, k, v, _, rfl, rfl, hk, hrun.2.symm,
                  Or.inl ⟨p, n, hn, hnk, ?_⟩⟩
                rw [hnk, h.array]
              · have habs : ∀ x : Nat, x < t.nodes.length → keyAt t.nodes x ≠ k :=
                  fun x hx hkx => hex ⟨x, hx, hkx⟩
                cases c with
                | false =>
                  obtain ⟨first, hfirst, _, hscan⟩ := h.scan_absent hi habs
                  simp only [shash_table_set, h.array, hk, if_false, Bool.not_true, hfirst,
                    hscan, create_shash_node] at hrun
                  simp at hrun
                  exact Or.inl ⟨hrun.1.symm, hrun.2.symm⟩
                | true =>
                  obtain ⟨t1, h1, _⟩ := h.insert v hk hi habs
                  rw [h1] at hrun
                  simp at hrun
                  exact Or.inr ⟨hrun.1.symm, rfl, rfl, k, v, t1, rfl, rfl, hk, hrun.2.symm,
                    Or.inr ⟨habs, rfl, hi, h1⟩⟩
            · have : arr[key_index k t.size]? = none :=
                List.getElem?_eq_none (Nat.le_of_not_lt hi)
              simp [shash_table_set, h.array, hk, this] at hrun

/-- A call that returns 0 leaves the table as it was. -/
theorem Inv.set_zero (h : Inv key_index t arr sl bl) {key value : Option (List Char)}
    {a b c : Bool} {ot : Option shash_table}
    (hrun : shash_table_set key_index (some t) key value a b c = some (0, ot)) :
    ot = some t := by
  rcases h.set_result hrun with ⟨_, h2⟩ | ⟨h1, _⟩
  · exact h2
  · exact absurd h1 (by decide)

/-- A call that returns 1 acts on the `(key, value)` list as `put`, and the new
table satisfies the invariant. -/
theorem Inv.set_one (h : Inv key_index t arr sl bl) {key value : Option (List Char)}
    {a b c : Bool} {ot : Option shash_table}
    (hrun : shash_table_set key_index (some t) key value a b c = some (1, ot)) :
    ∃ k v t' arr' sl' bl', key = some k ∧ value = some v ∧ k ≠ [] ∧ ot = some t' ∧
      Inv key_index t' arr' sl' bl' ∧ t'.size = t.size ∧ arr'.length = arr.length ∧
      items t' = put k v (items t) := by
  rcases h.set_result hrun with ⟨h1, _⟩ | ⟨_, _, _, k, v, t', hk, hv, hne, hot, hstep⟩
  · exact absurd h1 (by decide)
  · rcases hstep with ⟨p, n, hn, hnk, ht'⟩ | ⟨habs, _, hi, hset⟩
    · subst ht'
      exact ⟨k, v, _, arr, sl, bl, hk, hv, hne, hot, h.update hn v, rfl, rfl,
        hnk ▸ h.items_update hn v⟩
    · obtain ⟨t1, h1, hinv1, hsize, hlen, hkn, hvn, hold⟩ := h.insert v hne hi habs
      rw [h1] at hset
      simp at hset
      subst hset
      refine ⟨k, v, t1, _, _, _, hk, hv, hne, hot, hinv1, hsize, List.length_set _ _ _, ?_⟩
      have hnot : k ∉ (items t).map Prod.fst := by
        rw [h.mem_keys]
        rintro ⟨x, hx, hkx⟩
        exact habs x hx hkx
      rw [hinv1.items_eq, put, if_neg hnot, h.items_eq]
      exact ins_sorted_map t.nodes t1.nodes k v t.nodes.length ⟨hkn, hvn⟩ sl
        (fun x hx => hold x ((h.mem x).mp hx))

/-- Every defined outcome of `shash_table_set` keeps the invariant. -/
theorem Inv.set_inv (h : Inv key_index t arr sl bl) {key value : Option (List Char)}
    {a b c : Bool} {r : Int} {ot : Option shash_table}
    (hrun : shash_table_set key_index (some t) key value a b c = some (r, ot)) :
    ∃ t' arr' sl' bl', ot = some t' ∧ Inv key_index t' arr' sl' bl' := by
  rcases h.set_result hrun with ⟨_, h2⟩ | ⟨h1, _⟩
  · exact ⟨t, arr, sl, bl, h2, h⟩
  · subst h1
    obtain ⟨_, _, t', arr', sl', bl', _, _, _, hot, hinv, _⟩ := h.set_one hrun
    exact ⟨t', arr', sl', bl', hot, hinv⟩

end SetResult

/-! ## Printing, lookup and the backward walk -/

theorem print_loop_spec {m : List shash_node} :
    ∀ {l : List Nat} {p : Option Nat} (fuel : Nat) (many : Bool),
      Chain (fun n => n.snext) m p l → l.length ≤ fuel →
      print_loop m fuel p many = some (print_body m many l)
  | [], p, fuel, many, h, _ => by
    have : p = none := h
    subst this
    cases fuel <;> rfl
  | a :: l, p, 0, _, _, hf => by simp at hf
  | a :: l, p, fuel + 1, many, ⟨hp, n, hn, hrest⟩, hf => by
    subst hp
    have ih : print_loop m fuel n.snext true = _ :=
      print_loop_spec fuel true hrest (by simpa using hf)
    simp only [print_loop, hn, ih, print_body, keyAt_eq hn, valueAt_eq hn]

theorem print_rev_loop_spec {m : List shash_node} :
    ∀ {l : List Nat} {p : Option Nat} (fuel : Nat) (many : Bool),
      Chain (fun n => n.sprev) m p l → l.length ≤ fuel →
      print_rev_loop m fuel p many = some (print_body m many l)
  | [], p, fuel, many, h, _ => by
    have : p = none := h
    subst this
    cases fuel <;> rfl
  | a :: l, p, 0, _, _, hf => by simp at hf
  | a :: l, p, fuel + 1, many, ⟨hp, n, hn, hrest⟩, hf => by
    subst hp
    have ih : print_rev_loop m fuel n.sprev true = _ :=
      print_rev_loop_spec fuel true hrest (by simpa using hf)
    simp only [print_rev_loop, hn, ih, print_body, keyAt_eq hn, valueAt_eq hn]

theorem print_body_true (m : List shash_node) :
    ∀ l : List Nat, print_body m true l =
      (l.map (fun a => [',', ' '] ++ print_item (keyAt m a) (valueAt m a))).flatten
  | [] => rfl
  | a :: l => by
    simp only [print_body, if_true, List.map_cons, List.flatten_cons, print_body_true m l,
      List.append_assoc]

theorem intercalate_cons (sep x : List Char) :
    ∀ xs : List (List Char),
      List.intercalate sep (x :: xs) = x ++ (xs.map (fun y => sep ++ y)).flatten
  | [] => by simp [List.intercalate]
  | y :: ys => by
    have ih := intercalate_cons sep y ys
    simp only [List.intercalate] at ih ⊢
    simp only [List.intersperse, List.flatten_cons, ih, List.map_cons, List.append_assoc]

theorem print_body_false (m : List shash_node) (l : List Nat) :
    print_body m false l =
      List.intercalate [',', ' '] (l.map (fun a => print_item (keyAt m a) (valueAt m a))) := by
  cases l with
  | nil => simp [print_body, List.intercalate]
  | cons a l =>
    rw [List.map_cons, intercalate_cons, List.map_map]
    simp only [print_body, print_body_true, Bool.false_eq_true, if_false, List.nil_append]
    rfl

theorem DChain.backward {m : List shash_node} :
    ∀ {l : List Nat} {prev p : Option Nat} {rest : List Nat}, DChain m prev p l →
      Chain (fun n => n.sprev) m prev rest →
      Chain (fun n => n.sprev) m (l.getLast?.or prev) (l.reverse ++ rest)
  | [], _, _, _, _, hr => by simpa using hr
  | a :: l, prev, p, rest, ⟨_, n, hn, hprev, hrest⟩, hr => by
    have hstep : Chain (fun n => n.sprev) m (some a) (a :: rest) :=
      ⟨rfl, n, hn, by show Chain _ m n.sprev rest; rw [hprev]; exact hr⟩
    have ih := DChain.backward hrest hstep
    have e1 : (a :: l).getLast?.or prev = l.getLast?.or (some a) := by
      rw [List.getLast?_cons]
      cases l.getLast? <;> rfl
    have e2 : (a :: l).reverse ++ rest = l.reverse ++ a :: rest := by simp
    rw [e1, e2]
    exact ih

section Observers

variable {key_index : List Char → Nat → Nat} {t : shash_table} {arr : List (Option Nat)}
  {sl : List Nat} {bl : Nat → List Nat}

theorem Inv.rev_chain (h : Inv key_index t arr sl bl) :
    Chain (fun n => n.sprev) t.nodes t.stail sl.reverse := by
  have := @DChain.backward t.nodes sl none t.shead [] h.dchain rfl
  rw [h.stail]
  simpa using this

theorem Inv.rev_walk_eq (h : Inv key_index t arr sl bl) : rev_walk t = some sl.reverse :=
  Chain.walk _ h.rev_chain (by rw [List.length_reverse]; exact h.sl_length)

theorem Inv.print_eq (h : Inv key_index t arr sl bl) :
    shash_table_print (some t) = some (render (items t)) := by
  have hl := print_loop_spec t.nodes.length false h.dchain.chain h.sl_length
  simp only [shash_table_print, hl, print_body_false, render, h.items_eq, List.map_map]
  rfl

theorem Inv.print_rev_eq (h : Inv key_index t arr sl bl) :
    shash_table_print_rev (some t) = some (render (items t).reverse) := by
  have hl := print_rev_loop_spec t.nodes.length false h.rev_chain
    (by rw [List.length_reverse]; exact h.sl_length)
  simp only [shash_table_print_rev, hl, print_body_false, render, h.items_eq, List.map_map,
    ← List.map_reverse]
  rfl

theorem Inv.items_sorted (h : Inv key_index t arr sl bl) :
    (items t).Pairwise (fun e e' => strcmp e.1 e'.1 < 0) := by
  rw [h.items_eq, List.pairwise_map]
  exact h.sorted

theorem Inv.lookup_present (h : Inv key_index t arr sl bl) {p : Nat}
    (hp : p < t.nodes.length) :
    lookup (keyAt t.nodes p) (items t) = some (valueAt t.nodes p) := by
  unfold lookup
  rw [h.items_eq]
  cases hf : List.find? (fun e => decide (e.1 = keyAt t.nodes p))
      (sl.map (fun a => (keyAt t.nodes a, valueAt t.nodes a))) with
  | none =>
    have := List.find?_eq_none.mp hf (keyAt t.nodes p, valueAt t.nodes p)
      (List.mem_map.mpr ⟨p, (h.mem p).mpr hp, rfl⟩)
    simp at this
  | some e =>
    have h1 := List.find?_some hf
    have h2 := List.mem_of_find?_eq_some hf
    simp only [decide_eq_true_eq] at h1
    obtain ⟨a, ha, rfl⟩ := List.mem_map.mp h2
    have := h.key_unique ((h.mem a).mp ha) hp h1
    subst this
    rfl

theorem Inv.lookup_absent (h : Inv key_index t arr sl bl) {k : List Char}
    (habs : ∀ x : Nat, x < t.nodes.length → keyAt t.nodes x ≠ k) :
    lookup k (items t) = none := by
  unfold lookup
  rw [h.items_eq, Option.map_eq_none', List.find?_eq_none]
  intro e he
  obtain ⟨a, ha, rfl⟩ := List.mem_map.mp he
  simp only [decide_eq_true_eq]
  exact habs a ((h.mem a).mp ha)

/-- With a successful copy of the key, `shash_table_get` returns the value
associated with the key in the sorted chain (`NULL` when there is none),
provided the bucket index of the key is inside the array. -/
theorem Inv.get_eq (h : Inv key_index t arr sl bl) {k : List Char}
    (hi : key_index k t.size < arr.length) :
    shash_table_get key_index (some t) (some k) true = some (lookup k (items t)) := by
  by_cases hex : ∃ x : Nat, x < t.nodes.length ∧ keyAt t.nodes x = k
  · obtain ⟨p, hp, hkp⟩ := hex
    obtain ⟨first, hfirst, hscan⟩ := h.scan_found hp hkp
    obtain ⟨n, hn⟩ : ∃ n, t.nodes[p]? = some n := ⟨_, List.getElem?_eq_getElem hp⟩
    rw [← hkp, h.lookup_present hp, hkp]
    simp only [shash_table_get, h.array, hfirst, hscan, hn, valueAt_eq hn]
    rfl
  · have habs : ∀ x : Nat, x < t.nodes.length → keyAt t.nodes x ≠ k :=
      fun x hx hkx => hex ⟨x, hx, hkx⟩
    obtain ⟨first, hfirst, _, hscan⟩ := h.scan_absent hi habs
    rw [h.lookup_absent habs]
    simp only [shash_table_get, h.array, hfirst, hscan]
    rfl

theorem Inv.index_of_mem (h : Inv key_index t arr sl bl) {k : List Char}
    (hk : k ∈ (items t).map Prod.fst) : key_index k t.size < arr.length := by
  obtain ⟨a, ha, rfl⟩ := (h.mem_keys k).mp hk
  exact (h.bmem a ha).1

end Observers

/-! ## The association list -/

/-- When the copy of the key cannot be allocated, `shash_table_get` returns
`NULL` whatever the table holds. -/
theorem get_no_memory (key_index : List Char → Nat → Nat) (ht : Option shash_table)
    (key : Option (List Char)) : shash_table_get key_index ht key false = some none := by
  cases ht <;> cases key <;> rfl

theorem lookup_ins_item (k' k v : List Char) :
    ∀ l : List (List Char × List Char), k ∉ l.map Prod.fst →
      lookup k' (ins_item k v l) = if k' = k then some v else lookup k' l
  | [], _ => by
    by_cases h : k' = k
    · subst h; simp [lookup, ins_item]
    · simp [lookup, ins_item, h, Ne.symm h]
  | e :: l, hn => by
    have hne : e.1 ≠ k := fun h => hn (by simp [h])
    have hnl : k ∉ l.map Prod.fst := fun h => hn (by simp at h ⊢; exact Or.inr h)
    have ih := lookup_ins_item k' k v l hnl
    simp only [ins_item]
    split
    · by_cases h : k' = k
      · subst h; simp [lookup]
      · simp [lookup, h, Ne.symm h]
    · by_cases he : e.1 = k'
      · have hkk : k' ≠ k := fun h => hne (he.trans h)
        simp [lookup, he, hkk]
      · simp only [lookup, List.find?_cons, he, decide_False] at ih ⊢
        exact ih

theorem lookup_map_update (k' k v : List Char) (l : List (List Char × List Char))
    (hk : k ∈ l.map Prod.fst) :
    lookup k' (l.map (fun e => if e.1 = k then (k, v) else e)) =
      if k' = k then some v else lookup k' l := by
  induction l with
  | nil => simp at hk
  | cons e l ih =>
    by_cases he : e.1 = k
    · by_cases h : k' = k
      · subst h; simp [lookup, he]
      · have : ¬ k = k' := fun h' => h h'.symm
        have hek : ¬ e.1 = k' := fun h' => h (h'.symm.trans he)
        simp only [lookup, List.map_cons, he, if_true, List.find?_cons, this, decide_False, h,
          if_false, hek]
        by_cases hkl : k ∈ l.map Prod.fst
        · have := ih hkl
          simp only [lookup, h, if_false] at this
          exact this
        · have hid : l.map (fun e => if e.1 = k then (k, v) else e) = l := by
            conv_rhs => rw [← List.map_id l]
            refine List.map_congr_left (fun x hx => ?_)
            have : x.1 ≠ k := fun hxk => hkl (List.mem_map.mpr ⟨x, hx, hxk⟩)
            simp [this]
          rw [hid]
    · have hkl : k ∈ l.map Prod.fst := by
        simp only [List.map_cons, List.mem_cons] at hk
        rcases hk with h | h
        · exact absurd h.symm he
        · exact h
      have := ih hkl
      by_cases hek : e.1 = k'
      · have hkk : k' ≠ k := fun h => he (hek.trans h)
        simp [lookup, he, hek, hkk]
      · simp only [lookup, List.map_cons, he, if_false, List.find?_cons, hek, decide_False]
          at this ⊢
        exact this

theorem lookup_put (k' k v : List Char) (l : List (List Char × List Char)) :
    lookup k' (put k v l) = if k' = k then some v else lookup k' l := by
  unfold put
  split
  · next h => exact lookup_map_update k' k v l h
  · next h => exact lookup_ins_item k' k v l h

theorem mem_iff_lookup {l : List (List Char × List Char)}
    (hs : l.Pairwise (fun e e' => strcmp e.1 e'.1 < 0)) (k v : List Char) :
    (k, v) ∈ l ↔ lookup k l = some v := by
  induction l with
  | nil => simp [lookup]
  | cons e l ih =>
    obtain ⟨h1, h2⟩ := List.pairwise_cons.mp hs
    by_cases he : e.1 = k
    · have hnot : ∀ v', (k, v') ∉ l := by
        intro v' hm
        have := h1 _ hm
        rw [strcmp_neg_iff, he] at this
        exact lt_irrefl _ this
      simp only [lookup, List.find?_cons, he, decide_True, Option.map_some', List.mem_cons,
        Option.some.injEq]
      constructor
      · rintro (h | h)
        · rw [← h]
        · exact absurd h (hnot v)
      · intro h
        left
        rw [← h, ← he]
    · have : (k, v) ≠ e := fun h => he (by rw [← h])
      simp only [lookup, List.find?_cons, he, decide_False, List.mem_cons, this, false_or]
      exact ih h2

theorem sorted_keys_of_pairwise {l : List (List Char × List Char)}
    (hs : l.Pairwise (fun e e' => strcmp e.1 e'.1 < 0)) :
    (l.map Prod.fst).Sorted (fun a b => a < b) := by
  unfold List.Sorted
  rw [List.pairwise_map]
  exact hs.imp (fun {a b} h => (strcmp_neg_iff _ _).mp h)

/-! ## Reachable tables and sequences of calls -/

theorem Reachable.inv {key_index : List Char → Nat → Nat} {t : shash_table}
    (h : Reachable key_index t) : ∃ arr sl bl, Inv key_index t arr sl bl := by
  induction h with
  | create hc => exact ⟨_, _, _, Inv.create key_index hc⟩
  | set _ hs ih =>
    obtain ⟨arr, sl, bl, hinv⟩ := ih
    obtain ⟨t', arr', sl', bl', hot, hinv'⟩ := hinv.set_inv hs
    cases hot
    exact ⟨arr', sl', bl', hinv'⟩

theorem run_sets_spec {key_index : List Char → Nat → Nat} :
    ∀ (calls : List set_call) {t t' : shash_table} {arr : List (Option Nat)} {sl : List Nat}
      {bl : Nat → List Nat}, Inv key_index t arr sl bl →
      run_sets key_index (some t) calls = some (some t') →
      Reachable key_index t → 
      Reachable key_index t' ∧ ∃ arr' sl' bl', Inv key_index t' arr' sl' bl' ∧
        ∀ k, lookup k (items t') =
          calls.foldl (fun acc c => if c.key = k then some c.value else acc)
            (lookup k (items t))
  | [], t, t', arr, sl, bl, hinv, hrun, hr => by
    simp only [run_sets] at hrun
    cases hrun
    exact ⟨hr, arr, sl, bl, hinv, fun k => rfl⟩
  | c :: cs, t, t', arr, sl, bl, hinv, hrun, hr => by
    simp only [run_sets] at hrun
    cases hset : shash_table_set key_index (some t) (some c.key) (some c.value)
        c.keydup_ok c.valdup_ok c.new_ok with
    | none => simp [hset] at hrun
    | some res =>
      obtain ⟨r, ot⟩ := res
      simp only [hset] at hrun
      by_cases hr1 : r = 1
      · subst hr1
        simp only [if_true] at hrun
        obtain ⟨k, v, t1, arr1, sl1, bl1, hk, hv, _, hot, hinv1, _, _, hitems⟩ :=
          hinv.set_one hset
        cases hk; cases hv; subst hot
        obtain ⟨hr', arr', sl', bl', hinv', hlook⟩ :=
          run_sets_spec cs hinv1 hrun (Reachable.set hr hset)
        refine ⟨hr', arr', sl', bl', hinv', fun k => ?_⟩
        rw [hlook k, hitems, lookup_put, List.foldl_cons]
        by_cases hck : c.key = k
        · simp [hck]
        · have : ¬ k = c.key := fun h => hck h.symm
          simp [hck, this]
      · simp [hr1] at hrun

section ClaimLemmas

variable {key_index : List Char → Nat → Nat} {t : shash_table} {arr : List (Option Nat)}
  {sl : List Nat} {bl : Nat → List Nat}

/-- A lookup whose bucket index falls outside the array has no defined result. -/
theorem Inv.get_outside (h : Inv key_index t arr sl bl) {k : List Char}
    (hi : ¬ key_index k t.size < arr.length) :
    shash_table_get key_index (some t) (some k) true = none := by
  have : arr[key_index k t.size]? = none := List.getElem?_eq_none (Nat.le_of_not_lt hi)
  simp [shash_table_get, h.array, this]

theorem Inv.mem_keys_of_lookup (h : Inv key_index t arr sl bl) {k v : List Char}
    (hl : lookup k (items t) = some v) : k ∈ (items t).map Prod.fst :=
  List.mem_map.mpr ⟨(k, v), (mem_iff_lookup h.items_sorted k v).mpr hl, rfl⟩

/-- Lookup after a successful `shash_table_set`, for any allocation outcome of
the lookup. -/
theorem Inv.get_after_set (h : Inv key_index t arr sl bl) {k v : List Char} {a b c : Bool}
    {ot : Option shash_table}
    (hset : shash_table_set key_index (some t) (some k) (some v) a b c = some (1, ot))
    (g : Bool) :
    shash_table_get key_index ot (some k) g = some (if g then some v else none) := by
  cases g with
  | false => exact get_no_memory key_index ot (some k)
  | true =>
    obtain ⟨k', v', t', arr', sl', bl', hk, hv, _, hot, hinv', _, _, hitems⟩ := h.set_one hset
    cases hk; cases hv; subst hot
    have hl : lookup k (items t') = some v := by rw [hitems, lookup_put, if_pos rfl]
    rw [hinv'.get_eq (hinv'.index_of_mem (hinv'.mem_keys_of_lookup hl)), hl]
    rfl

/-- A call of `shash_table_set` on one key leaves the lookups of the other
keys as they were. -/
theorem Inv.get_other (h : Inv key_index t arr sl bl) {key value : Option (List Char)}
    {a b c : Bool} {r : Int} {t' : shash_table}
    (hset : shash_table_set key_index (some t) key value a b c = some (r, some t'))
    {k' : List Char} (hne : key ≠ some k') (g : Bool) :
    shash_table_get key_index (some t') (some k') g =
      shash_table_get key_index (some t) (some k') g := by
  cases g with
  | false => rw [get_no_memory, get_no_memory]
  | true =>
    rcases h.set_result hset with ⟨_, h2⟩ | ⟨h1, _⟩
    · cases h2; rfl
    · subst h1
      obtain ⟨k, v, t1, arr', sl', bl', hk, _, _, hot, hinv', hsize, hlen, hitems⟩ :=
        h.set_one hset
      cases hot
      have hkk : k' ≠ k := fun e => hne (by rw [hk, e])
      by_cases hi : key_index k' t.size < arr.length
      · rw [hinv'.get_eq (by rw [hsize, hlen]; exact hi), h.get_eq hi, hitems, lookup_put,
          if_neg hkk]
      · rw [hinv'.get_outside (by rw [hsize, hlen]; exact hi), h.get_outside hi]

end ClaimLemmas

theorem last_value_some (k : List Char) :
    ∀ (calls : List set_call) (acc : Option (List Char)),
      (acc.isSome ∨ k ∈ calls.map set_call.key) →
      ∃ v, calls.foldl (fun acc c => if c.key = k then some c.value else acc) acc = some v
  | [], acc, h => by
    rcases h with h | h
    · exact ⟨acc.get h, by simp⟩
    · simp at h
  | c :: cs, acc, h => by
    rw [List.foldl_cons]
    refine last_value_some k cs _ ?_
    by_cases hc : c.key = k
    · left; simp [hc]
    · rcases h with h | h
      · left; simp [hc, h]
      · right
        simp only [List.map_cons, List.mem_cons] at h
        rcases h with h | h
        · exact absurd h.symm hc
        · exact h

/-- A sequence of successful calls that starts from `shash_table_create` ends
in a reachable table whose lookups are the last values of the sequence. -/
theorem run_from_create {key_index : List Char → Nat → Nat} {n : Nat} {x y : Bool}
    {calls : List set_call} {t : shash_table}
    (hrun : run_sets key_index (shash_table_create n x y) calls = some (some t)) :
    Reachable key_index t ∧ ∃ arr sl bl, Inv key_index t arr sl bl ∧
      ∀ k, lookup k (items t) = last_value calls k := by
  cases hc : shash_table_create n x y with
  | none =>
    rw [hc] at hrun
    cases calls with
    | nil => simp [run_sets] at hrun
    | cons c cs => simp [run_sets, shash_table_set] at hrun
  | some t0 =>
    rw [hc] at hrun
    have hinv0 := Inv.create key_index hc
    obtain ⟨hr, arr, sl, bl, hinv, hlook⟩ := run_sets_spec calls hinv0 hrun (Reachable.create hc)
    refine ⟨hr, arr, sl, bl, hinv, fun k => ?_⟩
    rw [hlook k, hinv0.lookup_absent (fun x hx => by
      have := (hinv0.mem x).mpr hx
      simp at this)]
    rfl

/-! ## Evaluation on concrete tables -/

theorem create_table_empty : shash_table_create 16 true true = some table_empty := by decide

theorem set_a_on_empty :
    shash_table_set djb2_index (some table_empty) (some ['a']) (some ['1']) true true true =
      some (1, some table_a) := by decide

theorem set_a_on_a :
    shash_table_set djb2_index (some table_a) (some ['a']) (some ['2']) true true true =
      some (1, some table_a2) := by decide

theorem set_b_on_a :
    shash_table_set djb2_index (some table_a) (some ['b']) (some ['2']) true true true =
      some (1, some table_ab) := by decide

theorem run_bac :
    run_sets djb2_index (shash_table_create 16 true true)
      [call "b" "2", call "a" "1", call "c" "3"] = some (some table_bac) := by decide

theorem reachable_empty : Reachable djb2_index table_empty :=
  Reachable.create create_table_empty

theorem reachable_a : Reachable djb2_index table_a :=
  Reachable.set reachable_empty set_a_on_empty

theorem reachable_ab : Reachable djb2_index table_ab :=
  Reachable.set reachable_a set_b_on_a

/-! ## Claims C1 to C10 -/

/-- C1 (amended): when `shash_table_set(ht, k, v)` returns 1 on a reachable
table, the following `shash_table_get(ht, k)` returns exactly `v` if the copy
of the key that `shash_table_get` makes is allocated, and `NULL` if it is not. -/
theorem set_then_get (key_index : List Char → Nat → Nat) (t : shash_table) (k v : List Char)
    (a b c : Bool) (ot : Option shash_table) (hr : Reachable key_index t)
    (hset : shash_table_set key_index (some t) (some k) (some v) a b c = some (1, ot))
    (g : Bool) :
    shash_table_get key_index ot (some k) g = some (if g then some v else none) := by
  obtain ⟨arr, sl, bl, hinv⟩ := hr.inv
  exact hinv.get_after_set hset g

/-- C1, concrete case of the amended statement: `set("a", "1")` on the table of
`create(16)`, then `get("a")`. -/
theorem set_then_get_witness :
    Reachable djb2_index table_empty ∧
    shash_table_set djb2_index (some table_empty) (some ['a']) (some ['1']) true true true =
      some (1, some table_a) ∧
    ∀ g, shash_table_get djb2_index (some table_a) (some ['a']) g =
      some (if g then some ['1'] else none) :=
  ⟨reachable_empty, set_a_on_empty,
    set_then_get djb2_index table_empty ['a'] ['1'] true true true (some table_a)
      reachable_empty set_a_on_empty⟩

/-- C1 as stated fails: after `create(16)` and a successful `set("a", "1")`,
`get("a")` returns `NULL` when its `strdup` of the key fails. -/
theorem get_null_after_set :
    shash_table_set djb2_index (shash_table_create 16 true true) (some ['a']) (some ['1'])
        true true true = some (1, some table_a) ∧
    shash_table_get djb2_index (some table_a) (some ['a']) false = some none ∧
    shash_table_get djb2_index (some table_a) (some ['a']) false ≠ some (some ['1']) := by
  decide

/-- C2 (amended): after a sequence of successful `shash_table_set` calls on a
freshly created table, `shash_table_get` on a key of the sequence returns the
value of the last call with that key if the copy of the key that
`shash_table_get` makes is allocated, and `NULL` if it is not; and a call of
`shash_table_set` on one key never changes the result of `shash_table_get`
on another key. -/
theorem last_write_wins (key_index : List Char → Nat → Nat) (n : Nat) (x y : Bool)
    (calls : List set_call) (t : shash_table)
    (hrun : run_sets key_index (shash_table_create n x y) calls = some (some t)) :
    (∀ k, k ∈ calls.map set_call.key → ∀ g : Bool,
        shash_table_get key_index (some t) (some k) g =
          some (if g then last_value calls k else none)) ∧
    (∀ (key value : Option (List Char)) (a b c : Bool) (r : Int) (t' : shash_table)
        (k' : List Char) (g : Bool),
        shash_table_set key_index (some t) key value a b c = some (r, some t') →
        key ≠ some k' →
        shash_table_get key_index (some t') (some k') g =
          shash_table_get key_index (some t) (some k') g) := by
  obtain ⟨_, arr, sl, bl, hinv, hlook⟩ := run_from_create hrun
  refine ⟨fun k hk g => ?_, fun key value a b c r t' k' g hset hne => hinv.get_other hset hne g⟩
  cases g with
  | false => exact get_no_memory key_index _ _
  | true =>
    obtain ⟨v, hv⟩ := last_value_some k calls none (Or.inr hk)
    have hl : lookup k (items t) = some v := (hlook k).trans hv
    rw [hinv.get_eq (hinv.index_of_mem (hinv.mem_keys_of_lookup hl)), hlook k]
    rfl

/-- C2, concrete case of the amended statement: `set("a", "1"); set("a", "2")`
on the table of `create(16)`, then `get("a")`. -/
theorem last_write_wins_witness :
    run_sets djb2_index (shash_table_create 16 true true) [call "a" "1", call "a" "2"] =
      some (some table_a2) ∧
    shash_table_get djb2_index (some table_a2) (some ['a']) true = some (some ['2']) :=
  ⟨by decide,
    ((last_write_wins djb2_index 16 true true [call "a" "1", call "a" "2"] table_a2
      (by decide)).1 ['a'] (by decide) true).trans (by decide)⟩

/-- C2 as stated fails: after the successful calls `set("a", "1")` and
`set("b", "2")` on the table of `create(16)`, the last value set for `"b"` is
`"2"`, but `get("b")` returns `NULL` when its `strdup` of the key fails. -/
theorem get_null_after_sets :
    run_sets djb2_index (shash_table_create 16 true true) [call "a" "1", call "b" "2"] =
      some (some table_ab) ∧
    last_value [call "a" "1", call "b" "2"] ['b'] = some ['2'] ∧
    shash_table_get djb2_index (some table_ab) (some ['b']) false = some none := by
  decide

/-- C3: after a sequence of successful `shash_table_set` calls on a freshly
created table, `shash_table_print` writes `{`, then one item `'key': 'value'`
for each key set, in strictly ascending lexicographic key order and with the
last value set for the key, the items separated by `", "`, then `}` and a
newline. -/
theorem print_after_sets (key_index : List Char → Nat → Nat) (n : Nat) (x y : Bool)
    (calls : List set_call) (t : shash_table)
    (hrun : run_sets key_index (shash_table_create n x y) calls = some (some t)) :
    ∃ its : List (List Char × List Char),
      shash_table_print (some t) = some (render its) ∧
      (its.map Prod.fst).Sorted (fun a b => a < b) ∧
      ∀ k v, (k, v) ∈ its ↔ last_value calls k = some v := by
  obtain ⟨_, arr, sl, bl, hinv, hlook⟩ := run_from_create hrun
  refine ⟨items t, hinv.print_eq, sorted_keys_of_pairwise hinv.items_sorted, fun k v => ?_⟩
  rw [mem_iff_lookup hinv.items_sorted, hlook]

/-- C3, the scenario of the spec: `create(16); set("b","2"); set("a","1");
set("c","3")`, with the forward and the reverse print. -/
theorem print_after_sets_witness :
    run_sets djb2_index (shash_table_create 16 true true)
      [call "b" "2", call "a" "1", call "c" "3"] = some (some table_bac) ∧
    (∃ its : List (List Char × List Char),
      shash_table_print (some table_bac) = some (render its) ∧
      (its.map Prod.fst).Sorted (fun a b => a < b) ∧
      ∀ k v, (k, v) ∈ its ↔
        last_value [call "b" "2", call "a" "1", call "c" "3"] k = some v) ∧
    shash_table_print (some table_bac) =
      some "\x7b'a': '1', 'b': '2', 'c': '3'\x7d\n".toList ∧
    shash_table_print_rev (some table_bac) =
      some "\x7b'c': '3', 'b': '2', 'a': '1'\x7d\n".toList :=
  ⟨run_bac,
    print_after_sets djb2_index 16 true true [call "b" "2", call "a" "1", call "c" "3"]
      table_bac run_bac,
    by decide, by decide⟩

/-- C4: in every reachable table the walk of the sorted chain from `shead`
along `snext` ends, and the keys it meets are in non-decreasing `strcmp`
order. -/
theorem sorted_chain_ordered (key_index : List Char → Nat → Nat) (t : shash_table)
    (hr : Reachable key_index t) :
    ∃ sl, sorted_walk t = some sl ∧
      (sl.map (keyAt t.nodes)).Sorted (fun a b => strcmp a b ≤ 0) := by
  obtain ⟨arr, sl, bl, hinv⟩ := hr.inv
  refine ⟨sl, hinv.sorted_walk_eq, ?_⟩
  unfold List.Sorted
  rw [List.pairwise_map]
  exact hinv.sorted.imp (fun {a b} h => le_of_lt h)

/-- C4, concrete case: the table after `set("a","1"); set("b","2")`. -/
theorem sorted_chain_ordered_witness :
    Reachable djb2_index table_ab ∧
    ∃ sl, sorted_walk table_ab = some sl ∧
      (sl.map (keyAt table_ab.nodes)).Sorted (fun a b => strcmp a b ≤ 0) :=
  ⟨reachable_ab, sorted_chain_ordered djb2_index table_ab reachable_ab⟩

/-- C5: in every reachable table the walks of the sorted chain and of every
bucket chain end, no chain meets a node twice, and two entries of the table
(of a bucket chain or of the sorted chain) with equal keys are the same
node. -/
theorem keys_unique (key_index : List Char → Nat → Nat) (t : shash_table)
    (hr : Reachable key_index t) :
    (∃ arr sl, t.array = some arr ∧ sorted_walk t = some sl ∧ sl.Nodup ∧
      ∀ i, i < arr.length → ∃ bl, bucket_walk t i = some bl ∧ bl.Nodup) ∧
    ∀ a b, is_entry t a → is_entry t b → keyAt t.nodes a = keyAt t.nodes b → a = b := by
  obtain ⟨arr, sl, bl, hinv⟩ := hr.inv
  have hlt : ∀ a, is_entry t a → a < t.nodes.length := by
    rintro a (⟨sl', hw, ha⟩ | ⟨i, bl', hw, ha⟩)
    · rw [hinv.sorted_walk_eq] at hw
      cases hw
      exact (hinv.mem a).mp ha
    · by_cases hi : i < arr.length
      · rw [hinv.bucket_walk_eq hi] at hw
        cases hw
        exact hinv.blt i a ha
      · have : arr[i]? = none := List.getElem?_eq_none (Nat.le_of_not_lt hi)
        simp [bucket_walk, hinv.array, this] at hw
  exact ⟨⟨arr, sl, hinv.array, hinv.sorted_walk_eq, hinv.nodup,
    fun i hi => ⟨bl i, hinv.bucket_walk_eq hi, hinv.bnodup i⟩⟩,
    fun a b ha hb hk => hinv.key_unique (hlt a ha) (hlt b hb) hk⟩

/-- C5, concrete case: the table after `set("a","1"); set("b","2")`. -/
theorem keys_unique_witness :
    Reachable djb2_index table_ab ∧
    ((∃ arr sl, table_ab.array = some arr ∧ sorted_walk table_ab = some sl ∧ sl.Nodup ∧
      ∀ i, i < arr.length → ∃ bl, bucket_walk table_ab i = some bl ∧ bl.Nodup) ∧
    ∀ a b, is_entry table_ab a → is_entry table_ab b →
      keyAt table_ab.nodes a = keyAt table_ab.nodes b → a = b) :=
  ⟨reachable_ab, keys_unique djb2_index table_ab reachable_ab⟩

/-- C6: in every reachable table the walks of the sorted chain and of every
bucket chain end and meet no node twice; every node of the chain of bucket `i`
is a node of the sorted chain and `i` is the `key_index` of its key; and every
node of the sorted chain is in the chain of the bucket at the `key_index` of
its key. -/
theorem dual_membership (key_index : List Char → Nat → Nat) (t : shash_table)
    (hr : Reachable key_index t) :
    ∃ arr sl, t.array = some arr ∧ sorted_walk t = some sl ∧ sl.Nodup ∧
      (∀ i, i < arr.length → ∃ bl, bucket_walk t i = some bl ∧ bl.Nodup ∧
        ∀ a ∈ bl, a ∈ sl ∧ key_index (keyAt t.nodes a) t.size = i) ∧
      (∀ a ∈ sl, key_index (keyAt t.nodes a) t.size < arr.length ∧
        ∃ bl, bucket_walk t (key_index (keyAt t.nodes a) t.size) = some bl ∧ a ∈ bl) := by
  obtain ⟨arr, sl, bl, hinv⟩ := hr.inv
  refine ⟨arr, sl, hinv.array, hinv.sorted_walk_eq, hinv.nodup, fun i hi => ?_, fun a ha => ?_⟩
  · exact ⟨bl i, hinv.bucket_walk_eq hi, hinv.bnodup i, fun a ha =>
      ⟨(hinv.mem a).mpr (hinv.blt i a ha), hinv.bindex i a ha⟩⟩
  · obtain ⟨h1, h2⟩ := hinv.bmem a ((hinv.mem a).mp ha)
    exact ⟨h1, _, hinv.bucket_walk_eq h1, h2⟩

/-- C6, concrete case: the table after `set("a","1"); set("b","2")`. -/
theorem dual_membership_witness :
    Reachable djb2_index table_ab ∧
    ∃ arr sl, table_ab.array = some arr ∧ sorted_walk table_ab = some sl ∧ sl.Nodup ∧
      (∀ i, i < arr.length → ∃ bl, bucket_walk table_ab i = some bl ∧ bl.Nodup ∧
        ∀ a ∈ bl, a ∈ sl ∧ djb2_index (keyAt table_ab.nodes a) table_ab.size = i) ∧
      (∀ a ∈ sl, djb2_index (keyAt table_ab.nodes a) table_ab.size < arr.length ∧
        ∃ bl, bucket_walk table_ab (djb2_index (keyAt table_ab.nodes a) table_ab.size) =
          some bl ∧ a ∈ bl) :=
  ⟨reachable_ab, dual_membership djb2_index table_ab reachable_ab⟩

/-- C7: in every reachable table the walk from `stail` along `sprev` meets the
nodes of the walk from `shead` along `snext` in the reverse order, and
`shash_table_print_rev` writes the items of `shash_table_print` in the
reverse order. -/
theorem print_rev_mirrors_print (key_index : List Char → Nat → Nat) (t : shash_table)
    (hr : Reachable key_index t) :
    ∃ sl, sorted_walk t = some sl ∧ rev_walk t = some sl.reverse ∧
      shash_table_print (some t) =
        some (render (sl.map (fun a => (keyAt t.nodes a, valueAt t.nodes a)))) ∧
      shash_table_print_rev (some t) =
        some (render (sl.map (fun a => (keyAt t.nodes a, valueAt t.nodes a))).reverse) := by
  obtain ⟨arr, sl, bl, hinv⟩ := hr.inv
  refine ⟨sl, hinv.sorted_walk_eq, hinv.rev_walk_eq, ?_, ?_⟩
  · rw [hinv.print_eq, hinv.items_eq]
  · rw [hinv.print_rev_eq, hinv.items_eq]

/-- C7, concrete case: the table after `set("a","1"); set("b","2")`. -/
theorem print_rev_mirrors_print_witness :
    Reachable djb2_index table_ab ∧
    ∃ sl, sorted_walk table_ab = some sl ∧ rev_walk table_ab = some sl.reverse ∧
      shash_table_print (some table_ab) =
        some (render (sl.map (fun a => (keyAt table_ab.nodes a, valueAt table_ab.nodes a)))) ∧
      shash_table_print_rev (some table_ab) =
        some (render
          (sl.map (fun a => (keyAt table_ab.nodes a, valueAt table_ab.nodes a))).reverse) :=
  ⟨reachable_ab, print_rev_mirrors_print djb2_index table_ab reachable_ab⟩

theorem set_self_eq {m : List shash_node} {p : Nat} {n : shash_node}
    (h : m[p]? = some n) : m.set p n = m := by
  apply List.ext_getElem?
  intro i
  by_cases hi : i = p
  · subst hi; rw [get_set_self h, h]
  · rw [get_set_other hi]

/-- C8: on a reachable table that holds an entry with key `k`, a successful
`shash_table_set(ht, k, v)` only stores `v` as the value of that entry: the
number of nodes, `size`, `array`, `shead`, `stail`, the key and the three links
of every node, and hence the walks of the sorted chain (both ways) and of
every bucket chain, are unchanged. -/
theorem update_in_place (key_index : List Char → Nat → Nat) (t : shash_table) (k v : List Char)
    (a b c : Bool) (ot : Option shash_table) (hr : Reachable key_index t)
    (hk : k ∈ (items t).map Prod.fst)
    (hset : shash_table_set key_index (some t) (some k) (some v) a b c = some (1, ot)) :
    ∃ t' p n, ot = some t' ∧ t.nodes[p]? = some n ∧ n.key = k ∧
      t' = { t with nodes := t.nodes.set p { n with value := v } } ∧
      t'.nodes.length = t.nodes.length ∧ (items t').length = (items t).length ∧
      t'.size = t.size ∧ t'.array = t.array ∧ t'.shead = t.shead ∧ t'.stail = t.stail ∧
      (∀ x : Nat, (t'.nodes[x]?).map (fun n : shash_node => (n.key, n.next, n.sprev, n.snext)) =
        (t.nodes[x]?).map (fun n : shash_node => (n.key, n.next, n.sprev, n.snext))) ∧
      (∀ x : Nat, x ≠ p → t'.nodes[x]? = t.nodes[x]?) ∧
      keyAt t'.nodes p = k ∧ valueAt t'.nodes p = v ∧
      sorted_walk t' = sorted_walk t ∧ rev_walk t' = rev_walk t ∧
      ∀ i, bucket_walk t' i = bucket_walk t i := by
  obtain ⟨arr, sl, bl, hinv⟩ := hr.inv
  rcases hinv.set_result hset with ⟨h1, _⟩ | ⟨_, _, _, k', v', t', hk', hv', _, hot, hstep⟩
  · exact absurd h1 (by decide)
  · cases hk'; cases hv'
    rcases hstep with ⟨p, n, hn, hnk, ht'⟩ | ⟨habs, _⟩
    · have hinv' := hinv.update hn v
      rw [← ht'] at hinv'
      have hnode : ({ n with key := n.key, value := v } : shash_node) = { n with value := v } :=
        rfl
      have hget : t'.nodes[p]? = some { n with value := v } := by
        rw [ht']; exact get_set_self hn
      have hoth : ∀ x : Nat, x ≠ p → t'.nodes[x]? = t.nodes[x]? := by
        intro x hx; rw [ht']; exact get_set_other hx
      have hlen : t'.nodes.length = t.nodes.length := by
        rw [ht']; exact List.length_set _ _ _
      refine ⟨t', p, n, hot, hn, hnk, ht', hlen, ?_, by rw [ht'], by rw [ht'], by rw [ht'],
        by rw [ht'], ?_, hoth, ?_, ?_, ?_, ?_, ?_⟩
      · rw [hinv'.items_eq, hinv.items_eq, List.length_map, List.length_map]
      · intro x
        by_cases hx : x = p
        · subst hx; rw [hget, hn]; rfl
        · rw [hoth x hx]
      · rw [keyAt_eq hget]; exact hnk
      · rw [valueAt_eq hget]
      · rw [hinv'.sorted_walk_eq, hinv.sorted_walk_eq]
      · rw [hinv'.rev_walk_eq, hinv.rev_walk_eq]
      · intro i
        by_cases hi : i < arr.length
        · rw [hinv'.bucket_walk_eq hi, hinv.bucket_walk_eq hi]
        · have : arr[i]? = none := List.getElem?_eq_none (Nat.le_of_not_lt hi)
          simp [bucket_walk, hinv'.array, hinv.array, this]
    · obtain ⟨x, hx, hkx⟩ := (hinv.mem_keys k).mp hk
      exact absurd hkx (habs x hx)

/-- C8, the scenario of the spec: `set("a","1")` then `set("a","2")` gives
`get("a") = "2"` with exactly one entry, for `"a"`. -/
theorem update_in_place_witness :
    Reachable djb2_index table_a ∧
    ['a'] ∈ (items table_a).map Prod.fst ∧
    shash_table_set djb2_index (some table_a) (some ['a']) (some ['2']) true true true =
      some (1, some table_a2) ∧
    (∃ t' p n, some table_a2 = some t' ∧ table_a.nodes[p]? = some n ∧ n.key = ['a'] ∧
      t' = { table_a with nodes := table_a.nodes.set p { n with value := ['2'] } } ∧
      t'.nodes.length = table_a.nodes.length ∧ (items t').length = (items table_a).length ∧
      t'.size = table_a.size ∧ t'.array = table_a.array ∧ t'.shead = table_a.shead ∧
      t'.stail = table_a.stail ∧
      (∀ x : Nat, (t'.nodes[x]?).map (fun n : shash_node => (n.key, n.next, n.sprev, n.snext)) =
        (table_a.nodes[x]?).map (fun n : shash_node => (n.key, n.next, n.sprev, n.snext))) ∧
      (∀ x : Nat, x ≠ p → t'.nodes[x]? = table_a.nodes[x]?) ∧
      keyAt t'.nodes p = ['a'] ∧ valueAt t'.nodes p = ['2'] ∧
      sorted_walk t' = sorted_walk table_a ∧ rev_walk t' = rev_walk table_a ∧
      ∀ i, bucket_walk t' i = bucket_walk table_a i) ∧
    shash_table_get djb2_index (some table_a2) (some ['a']) true = some (some ['2']) ∧
    items table_a2 = [(['a'], ['2'])] :=
  ⟨reachable_a, by decide, set_a_on_a,
    update_in_place djb2_index table_a ['a'] ['2'] true true true (some table_a2) reachable_a
      (by decide) set_a_on_a,
    by decide, by decide⟩

/-- C9 (amended): on a reachable table, once `shash_table_set(ht, k, v)` has
returned 1, a second call with the same key and value returns, whatever the
outcome of its allocations, and leaves the table exactly as the first call
left it (so every `shash_table_get`, both prints and the number of entries
are those of the table after one call); and whatever the first call returned,
a second call that returns 0 leaves the table as the first call left it. -/
theorem set_twice (key_index : List Char → Nat → Nat) (t : shash_table) (k v : List Char)
    (a b c : Bool) (r : Int) (ot : Option shash_table) (hr : Reachable key_index t)
    (hset : shash_table_set key_index (some t) (some k) (some v) a b c = some (r, ot))
    (a' b' c' : Bool) :
    (r = 1 → ∃ r' : Int,
      shash_table_set key_index ot (some k) (some v) a' b' c' = some (r', ot)) ∧
    (∀ ot', shash_table_set key_index ot (some k) (some v) a' b' c' = some (0, ot') →
      ot' = ot) := by
  obtain ⟨arr, sl, bl, hinv⟩ := hr.inv
  refine ⟨fun hr1 => ?_, fun ot' hset' => ?_⟩
  · subst hr1
    obtain ⟨k1, v1, t1, arr1, sl1, bl1, hk1, hv1, hne, hot, hinv1, _, _, hitems⟩ :=
      hinv.set_one hset
    cases hk1; cases hv1; subst hot
    have hl : lookup k (items t1) = some v := by rw [hitems, lookup_put, if_pos rfl]
    obtain ⟨p, hp, hkp⟩ := (hinv1.mem_keys k).mp (hinv1.mem_keys_of_lookup hl)
    have hvp : valueAt t1.nodes p = v := by
      have := hinv1.lookup_present hp
      rw [hkp, hl] at this
      exact (Option.some.inj this).symm
    obtain ⟨n, hn⟩ : ∃ n, t1.nodes[p]? = some n := ⟨_, List.getElem?_eq_getElem hp⟩
    obtain ⟨first, hfirst, hscan⟩ := hinv1.scan_found hp hkp
    cases a' with
    | false => exact ⟨0, by simp [shash_table_set, hinv1.array, hne]⟩
    | true =>
      cases b' with
      | false => exact ⟨0, by simp [shash_table_set, hinv1.array, hne]⟩
      | true =>
        refine ⟨1, ?_⟩
        have hnode : ({ n with key := k, value := v } : shash_node) = n := by
          rw [keyAt_eq hn] at hkp
          rw [valueAt_eq hn] at hvp
          cases n
          simp only at hkp hvp
          subst hkp; subst hvp
          rfl
        have harr := hinv1.array
        simp only [shash_table_set, harr, hne, if_false, Bool.not_true, hfirst, hscan, hn,
          hnode, set_self_eq hn, Bool.false_eq_true]
        rw [← harr]
  · obtain ⟨t1, arr1, sl1, bl1, hot, hinv1⟩ := hinv.set_inv hset
    subst hot
    exact hinv1.set_zero hset'

/-- C9, concrete case of the amended statement: `set("a","1")` twice on the
table of `create(16)`. -/
theorem set_twice_witness :
    Reachable djb2_index table_empty ∧
    shash_table_set djb2_index (some table_empty) (some ['a']) (some ['1']) true true true =
      some (1, some table_a) ∧
    ∀ a b c : Bool,
      ((1 : Int) = 1 → ∃ r : Int,
        shash_table_set djb2_index (some table_a) (some ['a']) (some ['1']) a b c =
          some (r, some table_a)) ∧
      (∀ ot, shash_table_set djb2_index (some table_a) (some ['a']) (some ['1']) a b c =
        some (0, ot) → ot = some table_a) :=
  ⟨reachable_empty, set_a_on_empty,
    set_twice djb2_index table_empty ['a'] ['1'] true true true 1 (some table_a)
      reachable_empty set_a_on_empty⟩

/-- C9 as stated fails: on the table of `create(16)`, a first `set("a","1")`
whose `strdup` of the key fails returns 0 and leaves the table empty, and the
second `set("a","1")` succeeds; after one call `get("a")` is `NULL` and the
print is `{}`, after two calls they are `"1"` and `{'a': '1'}`. -/
theorem set_twice_differs :
    shash_table_set djb2_index (some table_empty) (some ['a']) (some ['1']) false true true =
      some (0, some table_empty) ∧
    shash_table_set djb2_index (some table_empty) (some ['a']) (some ['1']) true true true =
      some (1, some table_a) ∧
    shash_table_get djb2_index (some table_empty) (some ['a']) true = some none ∧
    shash_table_get djb2_index (some table_a) (some ['a']) true = some (some ['1']) ∧
    shash_table_print (some table_empty) = some "\x7b\x7d\n".toList ∧
    shash_table_print (some table_a) = some "\x7b'a': '1'\x7d\n".toList ∧
    (items table_empty).length = 0 ∧ (items table_a).length = 1 := by
  decide

/-- C10: `shash_table_delete` on the table after `set("a","1"); set("b","2")`
releases the node of `"a"` only, although the sorted chain holds both nodes:
the loop advances along `next`, the link of the bucket chain. -/
theorem delete_skips_entries :
    run_sets djb2_index (shash_table_create 16 true true) [call "a" "1", call "b" "2"] =
      some (some table_ab) ∧
    sorted_walk table_ab = some [0, 1] ∧
    shash_table_delete (some table_ab) =
      some [Released.key 0, Released.value 0, Released.node 0, Released.array,
        Released.table] := by
  decide

/-! ## Claims C11 to C20 -/

section Progress

variable {key_index : List Char → Nat → Nat} {t : shash_table} {arr : List (Option Nat)}
  {sl : List Nat} {bl : Nat → List Nat}

/-- On a table that satisfies the invariant, with a non-empty key whose slot
index is inside the array, `shash_table_set` always returns: 1 when the two
copies are allocated and either the key is present or the node is allocated,
0 otherwise, and then the table is untouched. -/
theorem Inv.set_total (h : Inv key_index t arr sl bl) {k : List Char} (v : List Char)
    (hk : k ≠ []) (hi : key_index k t.size < arr.length) (a b c : Bool) :
    ∃ (r : Int) (t' : shash_table),
      shash_table_set key_index (some t) (some k) (some v) a b c = some (r, some t') ∧
      (r = 0 ∨ r = 1) ∧
      (r = 1 ↔ a = true ∧ b = true ∧ (c = true ∨ k ∈ (items t).map Prod.fst)) ∧
      (r = 0 → t' = t) := by
  cases a with
  | false =>
    exact ⟨0, t, by simp [shash_table_set, h.array, hk], Or.inl rfl, by simp, fun _ => rfl⟩
  | true =>
    cases b with
    | false =>
      exact ⟨0, t, by simp [shash_table_set, h.array, hk], Or.inl rfl, by simp, fun _ => rfl⟩
    | true =>
      by_cases hex : ∃ x : Nat, x < t.nodes.length ∧ keyAt t.nodes x = k
      · have hmem : k ∈ (items t).map Prod.fst := (h.mem_keys k).mpr hex
        obtain ⟨p, hp, hkp⟩ := hex
        obtain ⟨first, hfirst, hscan⟩ := h.scan_found hp hkp
        obtain ⟨n, hn⟩ : ∃ n, t.nodes[p]? = some n := ⟨_, List.getElem?_eq_getElem hp⟩
        refine ⟨1, { t with nodes := t.nodes.set p { n with key := k, value := v } }, ?_,
          Or.inr rfl, by simp [hmem], fun h0 => absurd h0 (by decide)⟩
        have harr := h.array
        simp only [shash_table_set, harr, hk, if_false, Bool.not_true, hfirst, hscan, hn,
          Bool.false_eq_true]
      · have hnot : k ∉ (items t).map Prod.fst := fun hm => hex ((h.mem_keys k).mp hm)
        have habs : ∀ x : Nat, x < t.nodes.length → keyAt t.nodes x ≠ k :=
          fun x hx hkx => hex ⟨x, hx, hkx⟩
        cases c with
        | false =>
          obtain ⟨first, hfirst, _, hscan⟩ := h.scan_absent hi habs
          refine ⟨0, t, ?_, Or.inl rfl, by simp [hnot], fun _ => rfl⟩
          simp only [shash_table_set, h.array, hk, if_false, Bool.not_true, hfirst, hscan,
            create_shash_node, Bool.false_eq_true]
        | true =>
          obtain ⟨t1, h1, _⟩ := h.insert v hk hi habs
          exact ⟨1, t1, h1, Or.inr rfl, by simp, fun h0 => absurd h0 (by decide)⟩

end Progress

theorem Reachable.index_ok_iff {key_index : List Char → Nat → Nat} {t : shash_table}
    {arr : List (Option Nat)} {sl : List Nat} {bl : Nat → List Nat}
    (h : Inv key_index t arr sl bl) (k : List Char) :
    index_ok key_index t k ↔ key_index k t.size < arr.length := by
  constructor
  · rintro ⟨arr', harr, hlt⟩
    rw [h.array] at harr
    cases harr
    exact hlt
  · exact fun hlt => ⟨arr, h.array, hlt⟩

/-- C11: `shash_table_set` returns 0 and leaves the table exactly as it was
when the table is `NULL`, when its bucket array is `NULL`, when the key is
`NULL` and when the key is the empty string, whatever the other arguments and
the allocation outcomes. -/
theorem set_rejects_invalid (key_index : List Char → Nat → Nat) (t : shash_table)
    (key value : Option (List Char)) (a b c : Bool) :
    shash_table_set key_index none key value a b c = some (0, none) ∧
    shash_table_set key_index (some { t with array := none }) key value a b c =
      some (0, some { t with array := none }) ∧
    shash_table_set key_index (some t) none value a b c = some (0, some t) ∧
    shash_table_set key_index (some t) (some []) value a b c = some (0, some t) := by
  refine ⟨rfl, rfl, ?_, ?_⟩
  · cases h : t.array <;> simp [shash_table_set, h]
  · cases h : t.array <;> simp [shash_table_set, h]

/-- C14: `shash_table_create(2^61 + 1)` with both allocations successful returns
a table whose `size` is `2^61 + 1` but whose bucket array has one slot (the
byte count `8 * size` wraps to 8), and `get("a")` on it reads outside the
array. -/
theorem create_wraps_byte_count :
    shash_table_create 2305843009213693953 true true =
      some { size := 2305843009213693953, array := some [none], shead := none,
             stail := none, nodes := [] } ∧
    djb2_index ['a'] 2305843009213693953 = 177670 ∧
    shash_table_get djb2_index (shash_table_create 2305843009213693953 true true)
      (some ['a']) true = none := by
  decide

/-- Below the wrap of the byte count (`8 * n < 2^64`), a created table has `n`
empty slots and an empty sorted chain, prints `{}` and reports every key whose
slot index is below `n` as absent. -/
theorem create_without_wrap (key_index : List Char → Nat → Nat) (n : Nat)
    (hn : 8 * n < 2 ^ 64) :
    ∃ t, shash_table_create n true true = some t ∧ t.size = n ∧
      t.array = some (List.replicate n none) ∧ t.shead = none ∧ t.stail = none ∧
      shash_table_print (some t) = some ['{', '}', '\n'] ∧
      ∀ k g, key_index k n < n → shash_table_get key_index (some t) (some k) g = some none := by
  have hslots : (8 * n % 2 ^ 64) / 8 = n := by
    rw [Nat.mod_eq_of_lt hn]; omega
  have hc : shash_table_create n true true =
      some { size := n, array := some (List.replicate n none), shead := none, stail := none,
             nodes := [] } := by
    unfold shash_table_create
    rw [hslots]
    rfl
  refine ⟨_, hc, rfl, rfl, rfl, rfl, rfl, fun k g hk => ?_⟩
  cases g with
  | false => rfl
  | true =>
    have hget : (List.replicate n (none : Option Nat))[key_index k n]? = some none := by
      rw [List.getElem?_replicate]; simp [hk]
    simp only [shash_table_get, hget, bucket_scan]
    rfl

/-- C18 (amended): in every reachable table the walk of the sorted chain ends,
and `shash_table_get(ht, k)` returns `v` if and only if the copy of the key
that `shash_table_get` makes is allocated and the sorted chain (the sequence
that `shash_table_print` renders) contains an entry with key `k` and value
`v`. -/
theorem get_agrees_with_chain (key_index : List Char → Nat → Nat) (t : shash_table)
    (hr : Reachable key_index t) :
    ∃ sl, sorted_walk t = some sl ∧
      shash_table_print (some t) =
        some (render (sl.map (fun a => (keyAt t.nodes a, valueAt t.nodes a)))) ∧
      ∀ (k v : List Char) (g : Bool),
        shash_table_get key_index (some t) (some k) g = some (some v) ↔
          g = true ∧ ∃ a ∈ sl, keyAt t.nodes a = k ∧ valueAt t.nodes a = v := by
  obtain ⟨arr, sl, bl, hinv⟩ := hr.inv
  refine ⟨sl, hinv.sorted_walk_eq, by rw [hinv.print_eq, hinv.items_eq], fun k v g => ?_⟩
  have hmem : (k, v) ∈ items t ↔ ∃ a ∈ sl, keyAt t.nodes a = k ∧ valueAt t.nodes a = v := by
    rw [hinv.items_eq, List.mem_map]
    constructor
    · rintro ⟨a, ha, he⟩
      exact ⟨a, ha, (Prod.mk.inj he).1, (Prod.mk.inj he).2⟩
    · rintro ⟨a, ha, h1, h2⟩
      exact ⟨a, ha, by rw [h1, h2]⟩
  cases g with
  | false => simp [get_no_memory]
  | true =>
    rw [← hmem, mem_iff_lookup hinv.items_sorted]
    simp only [true_and]
    by_cases hi : key_index k t.size < arr.length
    · rw [hinv.get_eq hi]
      simp
    · rw [hinv.get_outside hi]
      constructor
      · intro h; cases h
      · intro h
        exact absurd (hinv.index_of_mem (hinv.mem_keys_of_lookup h)) hi

/-- C18, concrete case of the amended statement: the table after
`set("a","1"); set("b","2")`. -/
theorem get_agrees_with_chain_witness :
    Reachable djb2_index table_ab ∧
    ∃ sl, sorted_walk table_ab = some sl ∧
      shash_table_print (some table_ab) =
        some (render (sl.map (fun a => (keyAt table_ab.nodes a, valueAt table_ab.nodes a)))) ∧
      ∀ (k v : List Char) (g : Bool),
        shash_table_get djb2_index (some table_ab) (some k) g = some (some v) ↔
          g = true ∧ ∃ a ∈ sl, keyAt table_ab.nodes a = k ∧ valueAt table_ab.nodes a = v :=
  ⟨reachable_ab, get_agrees_with_chain djb2_index table_ab reachable_ab⟩

/-- C18 as stated fails: in the table after `set("a","1"); set("b","2")` the
sorted chain holds the entry `("a", "1")` at its first node, but `get("a")`
returns `NULL` when its `strdup` of the key fails. -/
theorem get_disagrees_with_chain :
    shash_table_set djb2_index (some table_a) (some ['b']) (some ['2']) true true true =
      some (1, some table_ab) ∧
    sorted_walk table_ab = some [0, 1] ∧
    keyAt table_ab.nodes 0 = ['a'] ∧ valueAt table_ab.nodes 0 = ['1'] ∧
    shash_table_get djb2_index (some table_ab) (some ['a']) false = some none := by
  decide

theorem DChain.last_snext {m : List shash_node} :
    ∀ {l : List Nat} {prev p : Option Nat}, DChain m prev p l →
      ∀ tl, l.getLast? = some tl → ∃ n, m[tl]? = some n ∧ n.snext = none
  | [], _, _, _, tl, h => by simp at h
  | [a], _, _, ⟨_, n, hn, _, hrest⟩, tl, h => by
    simp at h
    subst h
    exact ⟨n, hn, hrest⟩
  | a :: b :: l, _, _, ⟨_, n, hn, _, hrest⟩, tl, h => by
    rw [List.getLast?_cons_cons] at h
    exact DChain.last_snext hrest tl h

/-- C20: in every reachable table `shead` is `NULL` exactly when `stail` is,
the node at `shead` has no `sprev`, the node at `stail` has no `snext`, the
walk from `shead` along `snext` ends and `stail` is the last node it meets;
and `shash_table_set` (hence the append branch of `sorted_list_insert`, which
dereferences `stail`) never meets an undefined dereference, for any key
whose slot index is inside the bucket array. -/
theorem head_tail_well_formed (key_index : List Char → Nat → Nat) (t : shash_table)
    (hr : Reachable key_index t) :
    (t.shead = none ↔ t.stail = none) ∧
    (∀ h, t.shead = some h → ∃ n, t.nodes[h]? = some n ∧ n.sprev = none) ∧
    (∀ tl, t.stail = some tl → ∃ n, t.nodes[tl]? = some n ∧ n.snext = none) ∧
    (∃ sl, sorted_walk t = some sl ∧ t.shead = sl.head? ∧ t.stail = sl.getLast?) ∧
    (∀ (k v : List Char) (a b c : Bool), index_ok key_index t k →
      ∃ (r : Int) (t' : shash_table),
        shash_table_set key_index (some t) (some k) (some v) a b c = some (r, some t')) := by
  obtain ⟨arr, sl, bl, hinv⟩ := hr.inv
  have hhead : t.shead = sl.head? := by
    have hd := hinv.dchain
    cases sl with
    | nil => exact hd
    | cons x xs => exact hd.1
  refine ⟨?_, ?_, ?_, ⟨sl, hinv.sorted_walk_eq, hhead, hinv.stail⟩, ?_⟩
  · rw [hhead, hinv.stail, List.head?_eq_none_iff, List.getLast?_eq_none_iff]
  · intro h hh
    have hd := hinv.dchain
    cases sl with
    | nil => rw [hhead] at hh; cases hh
    | cons x xs =>
      obtain ⟨hp, n, hn, hprev, _⟩ := hd
      rw [hp] at hh
      cases hh
      exact ⟨n, hn, hprev⟩
  · intro tl htl
    rw [hinv.stail] at htl
    exact hinv.dchain.last_snext tl htl
  · intro k v a b c hi
    by_cases hk : k = []
    · subst hk
      exact ⟨0, t, by simp [shash_table_set, hinv.array]⟩
    · obtain ⟨r, t', hset, _⟩ :=
        hinv.set_total v hk ((Reachable.index_ok_iff hinv k).mp hi) a b c
      exact ⟨r, t', hset⟩

/-- C20, concrete case: the table after `set("a","1"); set("b","2")`. -/
theorem head_tail_well_formed_witness :
    Reachable djb2_index table_ab ∧
    ((table_ab.shead = none ↔ table_ab.stail = none) ∧
    (∀ h, table_ab.shead = some h → ∃ n, table_ab.nodes[h]? = some n ∧ n.sprev = none) ∧
    (∀ tl, table_ab.stail = some tl → ∃ n, table_ab.nodes[tl]? = some n ∧ n.snext = none) ∧
    (∃ sl, sorted_walk table_ab = some sl ∧ table_ab.shead = sl.head? ∧
      table_ab.stail = sl.getLast?) ∧
    (∀ (k v : List Char) (a b c : Bool), index_ok djb2_index table_ab k →
      ∃ (r : Int) (t' : shash_table),
        shash_table_set djb2_index (some table_ab) (some k) (some v) a b c =
          some (r, some t'))) :=
  ⟨reachable_ab, head_tail_well_formed djb2_index table_ab reachable_ab⟩

theorem strcmp_le_iff (a b : List Char) : strcmp a b ≤ 0 ↔ ¬ strcmp b a < 0 := by
  constructor
  · intro h hlt
    rw [strcmp_neg_iff] at hlt
    rcases lt_or_eq_of_le h with h1 | h1
    · rw [strcmp_neg_iff] at h1
      exact lt_asymm h1 hlt
    · rw [strcmp_eq_zero_iff] at h1
      rw [h1] at hlt
      exact lt_irrefl _ hlt
  · intro h
    rw [strcmp_neg_iff, not_lt] at h
    rcases lt_or_eq_of_le h with h1 | h1
    · exact le_of_lt ((strcmp_neg_iff _ _).mpr h1)
    · exact le_of_eq ((strcmp_eq_zero_iff _ _).mpr h1)

theorem ins_sorted_eq_reference (m : List shash_node) (k : List Char) (new : Nat) :
    ∀ l : List Nat, ins_sorted m k new l = reference_insert m k new l
  | [] => rfl
  | a :: l => by
    unfold reference_insert
    by_cases h : strcmp k (keyAt m a) < 0
    · have h' : ¬ strcmp (keyAt m a) k ≤ 0 := fun hle => (strcmp_le_iff _ _).mp hle h
      simp [ins_sorted, h, h', List.takeWhile_cons, List.dropWhile_cons]
    · have h' : strcmp (keyAt m a) k ≤ 0 := (strcmp_le_iff _ _).mpr h
      have ih := ins_sorted_eq_reference m k new l
      unfold reference_insert at ih
      simp [ins_sorted, h, h', List.takeWhile_cons, List.dropWhile_cons, ih]

theorem Chain.unique {nxt : shash_node → Option Nat} {m : List shash_node} :
    ∀ {l l' : List Nat} {p : Option Nat}, Chain nxt m p l → Chain nxt m p l' → l = l'
  | [], [], _, _, _ => rfl
  | [], _ :: _, _, h, h' => by
    have h1 : _ = none := h
    rw [h1] at h'
    cases h'.1
  | _ :: _, [], _, h, h' => by
    have h1 : _ = none := h'
    rw [h1] at h
    cases h.1
  | a :: l, b :: l', p, ⟨hp, n, hn, hrest⟩, ⟨hp', n', hn', hrest'⟩ => by
    rw [hp] at hp'
    cases hp'
    rw [hn] at hn'
    cases hn'
    rw [Chain.unique hrest hrest']

theorem Chain.suffix {nxt : shash_node → Option Nat} {m : List shash_node} {a : Nat}
    {l2 : List Nat} :
    ∀ {l1 : List Nat} {p : Option Nat}, Chain nxt m p (l1 ++ a :: l2) →
      Chain nxt m (some a) (a :: l2)
  | [], _, h => by
    obtain ⟨hp, rest⟩ := h
    exact ⟨rfl, rest⟩
  | _ :: _, _, ⟨_, _, _, hrest⟩ => Chain.suffix hrest

theorem Chain.nodup {nxt : shash_node → Option Nat} {m : List shash_node} :
    ∀ {l : List Nat} {p : Option Nat}, Chain nxt m p l → l.Nodup
  | [], _, _ => List.nodup_nil
  | a :: l, p, h => by
    obtain ⟨hp, n, hn, hrest⟩ := h
    refine List.nodup_cons.mpr ⟨fun hmem => ?_, Chain.nodup hrest⟩
    obtain ⟨l1, l2, hl⟩ := List.append_of_mem hmem
    subst hl
    have h1 : Chain nxt m (some a) (a :: l2) := Chain.suffix hrest
    have h2 : Chain nxt m (some a) (a :: (l1 ++ a :: l2)) := ⟨rfl, n, hn, hrest⟩
    have := congrArg List.length (Chain.unique h1 h2)
    simp at this
    omega

/-- C17: on a well-formed sorted chain `sl` (linked both ways from `shead`,
with `stail` its last node) and a node `new` outside it, `sorted_list_insert`
returns, and the sorted chain becomes the reference ordered insertion of `new`
into `sl`: read forwards from `shead`, read backwards from `stail`, with
`shead` its first and `stail` its last node; keys, values, bucket links, the
bucket array and `size` are untouched. -/
theorem sorted_list_insert_refines (ht : shash_table) (new : Nat) (nw : shash_node)
    (sl : List Nat) (hnw : ht.nodes[new]? = some nw)
    (hd : DChain ht.nodes none ht.shead sl) (htl : ht.stail = sl.getLast?)
    (hnew : new ∉ sl) :
    ∃ ht', sorted_list_insert ht new = some ht' ∧
      sorted_walk ht' = some (reference_insert ht.nodes nw.key new sl) ∧
      rev_walk ht' = some (reference_insert ht.nodes nw.key new sl).reverse ∧
      ht'.shead = (reference_insert ht.nodes nw.key new sl).head? ∧
      ht'.stail = (reference_insert ht.nodes nw.key new sl).getLast? ∧
      (∀ a : Nat, (ht'.nodes[a]?).map (fun n : shash_node => (n.key, n.value, n.next)) =
        (ht.nodes[a]?).map (fun n : shash_node => (n.key, n.value, n.next))) ∧
      ht'.array = ht.array ∧ ht'.size = ht.size := by
  have hnd : sl.Nodup := hd.chain.nodup
  have hlen : sl.length ≤ ht.nodes.length :=
    length_le_of_nodup_lt hnd (Chain.lt_length hd.chain)
  obtain ⟨ht', hrun, post⟩ := sorted_list_insert_spec new nw sl ht hnw hd hnew hnd htl hlen
  rw [ins_sorted_eq_reference] at post
  have hsh := post.shead_none rfl
  have hd' : DChain ht'.nodes none ht'.shead (reference_insert ht.nodes nw.key new sl) := by
    rw [hsh]; exact post.dchain
  have hlen' : (reference_insert ht.nodes nw.key new sl).length ≤ ht'.nodes.length :=
    length_le_of_nodup_lt hd'.chain.nodup (Chain.lt_length hd'.chain)
  have hback : Chain (fun n => n.sprev) ht'.nodes ht'.stail
      (reference_insert ht.nodes nw.key new sl).reverse := by
    have := @DChain.backward ht'.nodes _ none ht'.shead [] hd' rfl
    rw [post.stail]
    simpa using this
  exact ⟨ht', hrun, Chain.walk _ hd'.chain hlen',
    Chain.walk _ hback (by rw [List.length_reverse]; exact hlen'),
    hsh, post.stail, post.fields, post.array, post.size⟩

/-- C17, concrete case: the node of `"b"` is inserted into the sorted chain
that holds the node of `"a"`, which gives the table after
`set("a","1"); set("b","2")`. -/
theorem sorted_list_insert_refines_witness :
    table_a_pending_b.nodes[1]? = some (fresh_node ['b'] ['2']) ∧
    DChain table_a_pending_b.nodes none table_a_pending_b.shead [0] ∧
    table_a_pending_b.stail = [0].getLast? ∧ 1 ∉ [0] ∧
    sorted_list_insert table_a_pending_b 1 = some table_ab ∧
    reference_insert table_a_pending_b.nodes ['b'] 1 [0] = [0, 1] ∧
    ∃ ht', sorted_list_insert table_a_pending_b 1 = some ht' ∧
      sorted_walk ht' =
        some (reference_insert table_a_pending_b.nodes (fresh_node ['b'] ['2']).key 1 [0]) ∧
      rev_walk ht' =
        some (reference_insert table_a_pending_b.nodes
          (fresh_node ['b'] ['2']).key 1 [0]).reverse ∧
      ht'.shead =
        (reference_insert table_a_pending_b.nodes (fresh_node ['b'] ['2']).key 1 [0]).head? ∧
      ht'.stail =
        (reference_insert table_a_pending_b.nodes
          (fresh_node ['b'] ['2']).key 1 [0]).getLast? ∧
      (∀ a : Nat, (ht'.nodes[a]?).map (fun n : shash_node => (n.key, n.value, n.next)) =
        (table_a_pending_b.nodes[a]?).map (fun n : shash_node => (n.key, n.value, n.next))) ∧
      ht'.array = table_a_pending_b.array ∧ ht'.size = table_a_pending_b.size :=
  ⟨rfl, ⟨rfl, _, rfl, rfl, rfl⟩, rfl, by decide, by decide, by decide,
    sorted_list_insert_refines table_a_pending_b 1 (fresh_node ['b'] ['2']) [0] rfl
      ⟨rfl, _, rfl, rfl, rfl⟩ rfl (by decide)⟩

theorem run_sets_shape {key_index : List Char → Nat → Nat} :
    ∀ (calls : List set_call) {t t' : shash_table} {arr : List (Option Nat)} {sl : List Nat}
      {bl : Nat → List Nat}, Inv key_index t arr sl bl →
      run_sets key_index (some t) calls = some (some t') →
      ∃ arr' sl' bl', Inv key_index t' arr' sl' bl' ∧ t'.size = t.size ∧
        arr'.length = arr.length
  | [], t, t', arr, sl, bl, hinv, hrun => by
    simp only [run_sets] at hrun
    cases hrun
    exact ⟨arr, sl, bl, hinv, rfl, rfl⟩
  | c :: cs, t, t', arr, sl, bl, hinv, hrun => by
    simp only [run_sets] at hrun
    cases hset : shash_table_set key_index (some t) (some c.key) (some c.value)
        c.keydup_ok c.valdup_ok c.new_ok with
    | none => simp [hset] at hrun
    | some res =>
      obtain ⟨r, ot⟩ := res
      simp only [hset] at hrun
      by_cases hr1 : r = 1
      · subst hr1
        simp only [if_true] at hrun
        obtain ⟨_, _, t1, arr1, sl1, bl1, _, _, _, hot, hinv1, hsize, hlen, _⟩ :=
          hinv.set_one hset
        subst hot
        obtain ⟨arr', sl', bl', hinv', hsize', hlen'⟩ := run_sets_shape cs hinv1 hrun
        exact ⟨arr', sl', bl', hinv', hsize'.trans hsize, hlen'.trans hlen⟩
      · simp [hr1] at hrun

theorem last_value_nodup (k v : List Char) :
    ∀ (calls : List set_call) (acc : Option (List Char)),
      (calls.map set_call.key).Nodup →
      (calls.foldl (fun acc c => if c.key = k then some c.value else acc) acc = some v ↔
        (∃ c ∈ calls, c.key = k ∧ c.value = v) ∨
          (acc = some v ∧ k ∉ calls.map set_call.key))
  | [], acc, _ => by simp
  | c :: cs, acc, hnd => by
    rw [List.map_cons, List.nodup_cons] at hnd
    rw [List.foldl_cons, last_value_nodup k v cs _ hnd.2]
    by_cases hc : c.key = k
    · have hk : k ∉ cs.map set_call.key := hc ▸ hnd.1
      have hno : ¬ ∃ c' ∈ cs, c'.key = k ∧ c'.value = v :=
        fun ⟨c', hc', h1, _⟩ => hk (List.mem_map.mpr ⟨c', hc', h1⟩)
      simp only [hc, if_true, Option.some.injEq, hno, false_or, hk, not_false_eq_true,
        and_true, List.mem_cons, exists_eq_or_imp, true_and, List.map_cons, true_or,
        not_true_eq_false, and_false, or_false]
    · have hkc : ¬ k = c.key := fun h => hc h.symm
      simp only [hc, if_false, List.mem_cons, exists_eq_or_imp, false_and, false_or,
        List.map_cons, hkc, not_false_eq_true]

theorem eq_of_sorted_of_mem_iff {l1 l2 : List (List Char × List Char)}
    (h1 : l1.Pairwise (fun e e' => strcmp e.1 e'.1 < 0))
    (h2 : l2.Pairwise (fun e e' => strcmp e.1 e'.1 < 0))
    (hmem : ∀ e, e ∈ l1 ↔ e ∈ l2) : l1 = l2 := by
  have hne : ∀ {l : List (List Char × List Char)},
      l.Pairwise (fun e e' => strcmp e.1 e'.1 < 0) → l.Nodup := by
    intro l hl
    refine hl.imp (fun {a b} hab heq => ?_)
    rw [heq, strcmp_neg_iff] at hab
    exact lt_irrefl _ hab
  have hperm : l1.Perm l2 := (List.perm_ext_iff_of_nodup (hne h1) (hne h2)).mpr hmem
  haveI : IsAntisymm (List Char × List Char) (fun e e' => strcmp e.1 e'.1 < 0) :=
    ⟨fun a b hab hba => by
      rw [strcmp_neg_iff] at hab hba
      exact absurd hab (lt_asymm hba)⟩
  exact List.eq_of_perm_of_sorted hperm h1 h2

/-- A sequence of successful calls that starts from `shash_table_create(n)`
ends in a table of size `n` whose array has the slots of the created one. -/
theorem run_from_create_shape {key_index : List Char → Nat → Nat} {n : Nat} {x y : Bool}
    {calls : List set_call} {t : shash_table}
    (hrun : run_sets key_index (shash_table_create n x y) calls = some (some t)) :
    ∃ arr sl bl, Inv key_index t arr sl bl ∧ t.size = n ∧
      arr.length = (8 * n % 2 ^ 64) / 8 := by
  cases hc : shash_table_create n x y with
  | none =>
    rw [hc] at hrun
    cases calls with
    | nil => simp [run_sets] at hrun
    | cons c cs => simp [run_sets, shash_table_set] at hrun
  | some t0 =>
    rw [hc] at hrun
    have hinv0 := Inv.create key_index hc
    obtain ⟨arr, sl, bl, hinv, hsize, hlen⟩ := run_sets_shape calls hinv0 hrun
    have hs0 : t0.size = n := by
      unfold shash_table_create at hc
      cases x <;> cases y <;> simp at hc
      rw [← hc]
    exact ⟨arr, sl, bl, hinv, hsize.trans hs0, by rw [hlen, List.length_replicate]⟩

/-- C19: two sequences of successful `shash_table_set` calls on tables created
with the same capacity, one a permutation of the other and with pairwise
distinct keys, end in tables with the same `shash_table_print` output, the
same `shash_table_print_rev` output and the same `shash_table_get` result for
every key. -/
theorem insertion_order_independent (key_index : List Char → Nat → Nat) (n : Nat)
    (x y x' y' : Bool) (calls1 calls2 : List set_call) (t1 t2 : shash_table)
    (hrun1 : run_sets key_index (shash_table_create n x y) calls1 = some (some t1))
    (hrun2 : run_sets key_index (shash_table_create n x' y') calls2 = some (some t2))
    (hperm : (calls1.map (fun c => (c.key, c.value))).Perm
      (calls2.map (fun c => (c.key, c.value))))
    (hnd : (calls1.map set_call.key).Nodup) :
    ∃ its, shash_table_print (some t1) = some (render its) ∧
      shash_table_print (some t2) = some (render its) ∧
      shash_table_print_rev (some t1) = some (render its.reverse) ∧
      shash_table_print_rev (some t2) = some (render its.reverse) ∧
      ∀ k g, shash_table_get key_index (some t1) (some k) g =
        shash_table_get key_index (some t2) (some k) g := by
  obtain ⟨_, arr1, sl1, bl1, hinv1, hlook1⟩ := run_from_create hrun1
  obtain ⟨_, arr2, sl2, bl2, hinv2, hlook2⟩ := run_from_create hrun2
  obtain ⟨arr1', _, _, hinv1', hsize1, hlen1⟩ := run_from_create_shape hrun1
  obtain ⟨arr2', _, _, hinv2', hsize2, hlen2⟩ := run_from_create_shape hrun2
  have ha1 : arr1' = arr1 := Option.some.inj (hinv1'.array.symm.trans hinv1.array)
  have ha2 : arr2' = arr2 := Option.some.inj (hinv2'.array.symm.trans hinv2.array)
  subst ha1; subst ha2
  have hkeys : calls2.map set_call.key = (calls2.map (fun c => (c.key, c.value))).map Prod.fst := by
    rw [List.map_map]; rfl
  have hkeys1 : calls1.map set_call.key = (calls1.map (fun c => (c.key, c.value))).map Prod.fst := by
    rw [List.map_map]; rfl
  have hnd2 : (calls2.map set_call.key).Nodup := by
    rw [hkeys, ← (hperm.map Prod.fst).nodup_iff, ← hkeys1]
    exact hnd
  have hmemcalls : ∀ (calls : List set_call) (k v : List Char),
      (∃ c ∈ calls, c.key = k ∧ c.value = v) ↔ (k, v) ∈ calls.map (fun c => (c.key, c.value)) := by
    intro calls k v
    rw [List.mem_map]
    constructor
    · rintro ⟨c, hc, h1, h2⟩
      exact ⟨c, hc, by rw [h1, h2]⟩
    · rintro ⟨c, hc, he⟩
      exact ⟨c, hc, (Prod.mk.inj he).1, (Prod.mk.inj he).2⟩
  have hitems : items t1 = items t2 := by
    refine eq_of_sorted_of_mem_iff hinv1.items_sorted hinv2.items_sorted (fun e => ?_)
    obtain ⟨k, v⟩ := e
    rw [mem_iff_lookup hinv1.items_sorted, mem_iff_lookup hinv2.items_sorted, hlook1, hlook2]
    unfold last_value
    rw [last_value_nodup k v calls1 none hnd, last_value_nodup k v calls2 none hnd2]
    have hnone : ∀ P : Prop, ((none : Option (List Char)) = some v ∧ P) ↔ False :=
      fun P => ⟨fun h => Option.noConfusion h.1, False.elim⟩
    simp only [hnone, or_false]
    rw [hmemcalls, hmemcalls, hperm.mem_iff]
  refine ⟨items t1, hinv1.print_eq, by rw [hitems]; exact hinv2.print_eq, hinv1.print_rev_eq,
    by rw [hitems]; exact hinv2.print_rev_eq, fun k g => ?_⟩
  cases g with
  | false => rw [get_no_memory, get_no_memory]
  | true =>
    by_cases hi : key_index k n < (8 * n % 2 ^ 64) / 8
    · rw [hinv1.get_eq (by rw [hsize1, hlen1]; exact hi),
        hinv2.get_eq (by rw [hsize2, hlen2]; exact hi), hitems]
    · rw [hinv1.get_outside (by rw [hsize1, hlen1]; exact hi),
        hinv2.get_outside (by rw [hsize2, hlen2]; exact hi)]

/-- C19, concrete case: `set("a","1"); set("b","2")` against
`set("b","2"); set("a","1")` on tables of `create(16)`. -/
theorem insertion_order_independent_witness :
    run_sets djb2_index (shash_table_create 16 true true) [call "a" "1", call "b" "2"] =
      some (some table_ab) ∧
    run_sets djb2_index (shash_table_create 16 true true) [call "b" "2", call "a" "1"] =
      some (some table_ba) ∧
    ([call "a" "1", call "b" "2"].map (fun c => (c.key, c.value))).Perm
      ([call "b" "2", call "a" "1"].map (fun c => (c.key, c.value))) ∧
    ([call "a" "1", call "b" "2"].map set_call.key).Nodup ∧
    ∃ its, shash_table_print (some table_ab) = some (render its) ∧
      shash_table_print (some table_ba) = some (render its) ∧
      shash_table_print_rev (some table_ab) = some (render its.reverse) ∧
      shash_table_print_rev (some table_ba) = some (render its.reverse) ∧
      ∀ k g, shash_table_get djb2_index (some table_ab) (some k) g =
        shash_table_get djb2_index (some table_ba) (some k) g :=
  ⟨by decide, by decide, by decide, by decide,
    insertion_order_independent djb2_index 16 true true true true
      [call "a" "1", call "b" "2"] [call "b" "2", call "a" "1"] table_ab table_ba
      (by decide) (by decide) (by decide) (by decide)⟩

end SortedHashTable

/-! # Theorems on `print_last_digit` -/

namespace PrintLastDigit

theorem tmod_ten (n : Int) :
    (if n < 0 then Int.tmod n 10 * -1 else Int.tmod n 10) = ((n.natAbs % 10 : Nat) : Int) := by
  cases n with
  | ofNat m =>
    have h : ¬ (Int.ofNat m < 0) := by simp
    rw [if_neg h]
    rfl
  | negSucc m =>
    have h : Int.negSucc m < 0 := Int.negSucc_lt_zero m
    rw [if_pos h]
    show -((((m + 1) % 10 : Nat) : Int)) * -1 = _
    simp [Int.natAbs]

/-- C15: for every `int` value `n` (the law holds for every integer, so for
every 32-bit signed one, `INT_MIN` and the negative values included),
`print_last_digit` meets no overflow, returns `|n| mod 10` (between 0 and 9)
and writes the single character `'0'` plus that value. -/
theorem print_last_digit_spec (n : Int) :
    print_last_digit n =
      some ([Char.ofNat (48 + n.natAbs % 10)], ((n.natAbs % 10 : Nat) : Int)) ∧
    n.natAbs % 10 ≤ 9 := by
  have hd : n.natAbs % 10 < 10 := Nat.mod_lt _ (by decide)
  have hlast := tmod_ten n
  refine ⟨?_, by omega⟩
  have h0 : int_value (Int.tmod n 10) = some (Int.tmod n 10) := by
    unfold int_value
    rw [if_pos]
    by_cases hn : n < 0
    · rw [if_pos hn] at hlast
      omega
    · rw [if_neg hn] at hlast
      omega
  have h1 : (if n < 0 then int_value (Int.tmod n 10 * -1) else some (Int.tmod n 10)) =
      some ((n.natAbs % 10 : Nat) : Int) := by
    by_cases hn : n < 0
    · rw [if_pos hn] at hlast ⊢
      rw [hlast]
      unfold int_value
      rw [if_pos (by omega)]
    · rw [if_neg hn] at hlast ⊢
      rw [hlast]
  have h2 : int_value (((n.natAbs % 10 : Nat) : Int) + 48) =
      some (((n.natAbs % 10 : Nat) : Int) + 48) := by
    unfold int_value
    rw [if_pos (by omega)]
  have h3 : to_char (((n.natAbs % 10 : Nat) : Int) + 48) = Char.ofNat (48 + n.natAbs % 10) := by
    unfold to_char
    have hc : ((((n.natAbs % 10 : Nat) : Int) + 48) % 256).toNat = 48 + n.natAbs % 10 := by
      omega
    rw [hc]
  have key : ∀ r0 r1 r2 : Int, int_value (Int.tmod n 10) = some r0 →
      (if n < 0 then int_value (r0 * -1) else some r0) = some r1 →
      int_value (r1 + 48) = some r2 →
      print_last_digit n = some ([to_char r2], r1) := by
    intro r0 r1 r2 e0 e1 e2
    unfold print_last_digit
    rw [e0]
    dsimp only
    rw [e1]
    dsimp only
    rw [e2]
  rw [key _ _ _ h0 h1 h2, h3]

/-- The last digit of `INT_MIN`, of `-7` and of `2025`, by evaluation. -/
theorem print_last_digit_examples :
    print_last_digit (-2147483648) = some (['8'], 8) ∧
    print_last_digit (-7) = some (['7'], 7) ∧
    print_last_digit 2025 = some (['5'], 5) := by
  decide

end PrintLastDigit

/-! # Theorems on `puts_half` -/

namespace PutsHalf

theorem puts_half_loop_drop (str : List Char) :
    ∀ (fuel i : Nat), i ≤ str.length → str.length - i < fuel →
      puts_half_loop str fuel (i : Int) = some (str.drop i)
  | 0, _, _, h => by omega
  | fuel + 1, i, hi, hf => by
    have hneg : ¬ ((i : Int) < 0) := by omega
    simp only [puts_half_loop, hneg, if_false, Int.toNat_ofNat]
    by_cases hlt : i < str.length
    · have hget : str[i]? = some str[i] := List.getElem?_eq_getElem hlt
      have ih := puts_half_loop_drop str fuel (i + 1) (by omega) (by omega)
      have hcast : ((i : Int) + 1) = ((i + 1 : Nat) : Int) := by simp
      rw [hget]
      simp only [hcast, ih]
      rw [List.drop_eq_getElem_cons hlt]
    · have hil : i = str.length := by omega
      have hget : str[i]? = none := List.getElem?_eq_none (by omega)
      rw [hget]
      simp [hil]

/-- What `puts_half` writes: the characters of the string from index `max / 2`
on, then a newline, whatever the length the first loop has counted. -/
theorem puts_half_eq (max : Int) (str : List Char) (h0 : 0 ≤ max)
    (hlen : (str.length : Int) ≤ 2147483647) (hmax : (max / 2).toNat ≤ str.length) :
    puts_half max str = some (str.drop (max / 2).toNat ++ ['\n']) := by
  have hdiv : Int.tdiv max 2 = (((max / 2).toNat : Nat) : Int) := by
    rw [Int.tdiv_eq_ediv h0 (by decide)]
    omega
  have hnot : ¬ ((str.length : Int) > 2147483647) := by omega
  simp only [puts_half, hnot, if_false, hdiv,
    puts_half_loop_drop str (str.length + 1) _ hmax (by omega)]

/-- C16: with `max` equal to 0, `puts_half("abcd")` writes the whole string
and a newline, not the half that starts at index `4 / 2`; with `max` equal
to 4 it writes that half. -/
theorem puts_half_ignores_length :
    puts_half 0 ['a', 'b', 'c', 'd'] = some ['a', 'b', 'c', 'd', '\n'] ∧
    ['a', 'b', 'c', 'd'].drop (['a', 'b', 'c', 'd'].length / 2) ++ ['\n'] = ['c', 'd', '\n'] ∧
    puts_half 4 ['a', 'b', 'c', 'd'] = some ['c', 'd', '\n'] := by
  decide

end PutsHalf
